import Mathlib

/-!
Verification of the azure-cli-sql argument layer
(`_validators.py` and the `SizeWithUnitConverter` of `_params.py`).

The argparse namespace is modelled as an association list from attribute
name to value (insertion order preserved, matching `vars(namespace)`),
and Python dict/attribute operations are modelled by the `d*`/`ns*`
functions below with Python's semantics (update-in-place keeps position,
a new key is appended).
-/

namespace AzCliSql

/-- Python values as they occur in the argparse namespace: `None`, strings,
ints, bools, lists, and the constructed SDK model object.  A model object
records the type name and the keyword arguments the constructor was called
with (the constructor itself is an out-of-scope SDK class). -/
inductive Val : Type where
  | none : Val
  | str (s : String) : Val
  | int (n : Int) : Val
  | bool (b : Bool) : Val
  | list (elems : List Val) : Val
  | model (typeName : String) (kwargs : List (String × Val)) : Val
deriving Repr

instance : Inhabited Val := ⟨Val.none⟩

/-- Python truthiness of a value (`bool(v)`): `None`, `""`, `0`, `[]` and
`False` are falsy; a constructed model object is truthy. -/
def truthy : Val → Bool
  | Val.none => false
  | Val.str s => !s.isEmpty
  | Val.int n => n != 0
  | Val.bool b => b
  | Val.list l => !l.isEmpty
  | Val.model _ _ => true

/-- `k in d` for a Python dict modelled as an association list. -/
def dmem (d : List (String × α)) (k : String) : Bool :=
  d.any (fun p => p.1 == k)

/-- `d.get(k)` returning `none` when absent. -/
def dlookup (d : List (String × α)) (k : String) : Option α :=
  (d.find? (fun p => p.1 == k)).map (fun p => p.2)

/-- `d[k]` where the key is expected to be present (`default` otherwise). -/
def dget [Inhabited α] (d : List (String × α)) (k : String) : α :=
  (dlookup d k).getD default

/-- `d[k] = v`: Python dict assignment — an existing key keeps its position,
a new key is appended at the end. -/
def dinsert (d : List (String × α)) (k : String) (v : α) : List (String × α) :=
  if dmem d k then d.map (fun p => if p.1 == k then (k, v) else p)
  else d ++ [(k, v)]

/-- `del d[k]` / `delattr(namespace, k)`. -/
def ddel (d : List (String × α)) (k : String) : List (String × α) :=
  d.filter (fun p => p.1 != k)

/-- The argparse namespace: attribute name to value, in insertion order. -/
def Namespace : Type := List (String × Val)

/-- `vars(namespace)` key list. -/
def nsVars (ns : Namespace) : List String := ns.map (fun p => p.1)

/-- `matched_keys = [k for k in vars(namespace) if k in model_properties]`
(from `_expansion_validator_impl`). -/
def matchedKeys (model_properties : List (String × String)) (ns : Namespace) :
    List String :=
  (nsVars ns).filter (fun k => dmem model_properties k)

/-- `_expansion_validator_impl` from `_validators.py`: collects the values of
the declared flag keys present in the namespace, maps each key to its model
property name, builds the model (recorded as `Val.model`) when any collected
value is truthy and stores it under `assigned_arg`, then deletes every
matched key from the namespace. -/
def expansion_validator_impl (model_properties : List (String × String))
    (assigned_arg : String) (model_type : String) (ns : Namespace) : Namespace :=
  let matched_keys := matchedKeys model_properties ns
  let properties := matched_keys.foldl
    (fun d k => dinsert d (dget model_properties k) (dget ns k)) []
  let ns1 := if properties.any (fun p => truthy p.2)
    then dinsert ns assigned_arg (Val.model model_type properties)
    else ns
  matched_keys.foldl (fun n k => ddel n k) ns1

/-- One entry of the `arguments` list passed to `create_args_for_complex_type`:
either a bare property name, or a `(property_name, property_key)` tuple that
exposes the property under a distinct flag name. -/
inductive ArgDecl : Type where
  | single (name : String) : ArgDecl
  | pair (property_name : String) (property_key : String) : ArgDecl
deriving Repr, DecidableEq

/-- The exposed flag name of a declaration (`property_key`). -/
def argKey : ArgDecl → String
  | ArgDecl.single n => n
  | ArgDecl.pair _ k => k

/-- The source model property name of a declaration (`property_name`). -/
def argName : ArgDecl → String
  | ArgDecl.single n => n
  | ArgDecl.pair n _ => n

/-- The `model_properties` dict built by the loop of
`create_args_for_complex_type`: `model_properties[property_key] = property_name`
for each declared argument, in order. -/
def build_model_properties (arguments : List ArgDecl) : List (String × String) :=
  arguments.foldl (fun d a => dinsert d (argKey a) (argName a)) []

/-! ### `validate_subnet` -/

/-- The fields of the argparse namespace read by `validate_subnet`. -/
structure SubnetNamespace : Type where
  virtual_network_subnet_id : Option String
  vnet_name : Option String
  resource_group_name : String
deriving Repr, DecidableEq

/-- Python truthiness of an optional string (`None` and `""` are falsy). -/
def truthyStr : Option String → Bool
  | Option.none => false
  | Option.some s => !s.isEmpty

/-- Modelled from the spec: `is_valid_resource_id` of the external
`msrestazure.tools` library (not part of this repository's sources).  Per the
spec, a subnet value is "fully qualified" when it is a resource identifier,
which starts with the `/subscriptions/` segment; `None` is not an identifier. -/
def is_valid_resource_id : Option String → Bool
  | Option.none => false
  | Option.some s => List.isPrefixOf "/subscriptions/".toList s.toList

/-- Modelled from the spec: `resource_id` of the external `msrestazure.tools`
library (not part of this repository's sources).  Per the spec it combines the
subscription, resource group, provider namespace, type, name and one child
type/name pair into the canonical identifier
`/subscriptions/S/resourceGroups/RG/providers/NS/TYPE/NAME/CHILDTYPE/CHILDNAME`. -/
def resource_id (subscription resource_group nspace ty name child_type_1
    child_name_1 : String) : String :=
  "/subscriptions/" ++ subscription ++ "/resourceGroups/" ++ resource_group ++
  "/providers/" ++ nspace ++ "/" ++ ty ++ "/" ++ name ++ "/" ++ child_type_1 ++
  "/" ++ child_name_1

/-- `validate_subnet` from `_validators.py`, as a state transformer: the first
component is the raised `CLIError` message (if any), the second the namespace
state when the function returns or the error propagates.  The
`delattr(namespace, 'vnet_name')` after the case split runs only on the two
non-raising paths (deletion of the attribute is modelled as setting it to
`none`); the subscription id comes from the out-of-scope CLI context and is a
parameter. -/
def validate_subnet (subscription : String) (ns : SubnetNamespace) :
    Option String × SubnetNamespace :=
  if (is_valid_resource_id ns.virtual_network_subnet_id &&
        !truthyStr ns.vnet_name) ||
      (!truthyStr ns.virtual_network_subnet_id && !truthyStr ns.vnet_name) then
    (Option.none, { ns with vnet_name := Option.none })
  else if truthyStr ns.virtual_network_subnet_id &&
      !is_valid_resource_id ns.virtual_network_subnet_id &&
      truthyStr ns.vnet_name then
    (Option.none,
     { ns with
        virtual_network_subnet_id := Option.some (resource_id subscription
          ns.resource_group_name "Microsoft.Network" "virtualNetworks"
          (ns.vnet_name.getD "") "subnets"
          (ns.virtual_network_subnet_id.getD "")),
        vnet_name := Option.none })
  else
    (Option.some "incorrect usage: [--subnet ID | --subnet NAME --vnet-name NAME]",
     ns)

/-! ### `validate_managed_instance_storage_size` -/

/-- The field of the argparse namespace read by
`validate_managed_instance_storage_size`. -/
structure ManagedInstanceNamespace : Type where
  storage_size_in_gb : Option Int
deriving Repr, DecidableEq

/-- Python truthiness of an optional int (`None` and `0` are falsy). -/
def truthyInt : Option Int → Bool
  | Option.none => false
  | Option.some n => n != 0

/-- `validate_managed_instance_storage_size` from `_validators.py`: passes when
the storage size is falsy or a multiple of 32, raises a `CLIError` otherwise;
the namespace is never modified. -/
def validate_managed_instance_storage_size (ns : ManagedInstanceNamespace) :
    Option String × ManagedInstanceNamespace :=
  if !truthyInt ns.storage_size_in_gb ||
      (truthyInt ns.storage_size_in_gb &&
        ns.storage_size_in_gb.getD 0 % 32 == 0) then
    (Option.none, ns)
  else
    (Option.some "incorrect usage: --storage must be specified in increments of 32 GB",
     ns)

/-! ### `SizeWithUnitConverter` -/

/-- The configuration of `SizeWithUnitConverter` (`_params.py`): the base unit
and the unit map.  The Python float multipliers are modelled as exact
rationals (every multiplier used in this module is a power of two, exactly
representable); `result_type` is always `int`, modelled by truncation to `ℤ`. -/
structure SizeWithUnitConverter : Type where
  unit : String
  unit_map : List (String × ℚ)

/-- Python `int()` on a rational: truncation toward zero. -/
def pyTrunc (q : ℚ) : ℤ := if q < 0 then ⌈q⌉ else ⌊q⌋

/-- Python `int()` on a non-empty string of decimal digits. -/
def digitsToNat (l : List Char) : ℕ :=
  l.foldl (fun acc c => 10 * acc + (c.toNat - '0'.toNat)) 0

/-- `SizeWithUnitConverter.__call__`: split the input into the leading digit
run and the trailing unit part (`value[len(numeric_part):]`), look up the unit
multipliers (an unknown suffix raises `KeyError`, re-raised as `ValueError`),
and return `int(uvals * int(numeric_part))`; an empty numeric part makes
`int(numeric_part)` raise `ValueError` directly.

This version idealizes CPython's float arithmetic as exact rational
arithmetic and the digit split as ASCII `Char.isDigit`; it agrees with the
program exactly when the input is ASCII and every intermediate float is a
power of two times an integer below `2^53` (the domain of the theorem about
the `--storage` instantiation below).  `size_with_unit_call_float` further
down models the binary64 rounding and the overflow behaviour explicitly. -/
def size_with_unit_call (c : SizeWithUnitConverter) (value : String) :
    Except String Int :=
  let numeric_part := value.toList.takeWhile Char.isDigit
  let unit_part := value.toList.dropWhile Char.isDigit
  match (if unit_part.isEmpty then Option.some (1 : ℚ)
         else dlookup c.unit_map (String.mk unit_part)) with
  | Option.none => Except.error "ValueError"
  | Option.some unum =>
    match (if c.unit.isEmpty then Option.some (1 : ℚ)
           else dlookup c.unit_map c.unit) with
    | Option.none => Except.error "ValueError"
    | Option.some uden =>
      if numeric_part.isEmpty then Except.error "ValueError"
      else Except.ok (pyTrunc (unum / uden * (digitsToNat numeric_part : ℚ)))

/-- The default unit map of `SizeWithUnitConverter.__init__`: the binary byte
ladder. -/
def default_unit_map : List (String × ℚ) :=
  [("B", 1), ("kB", 1024), ("MB", 1024 * 1024), ("GB", 1024 * 1024 * 1024),
   ("TB", 1024 * 1024 * 1024 * 1024)]

/-- The converter of `max_size_bytes_param_type` (`_params.py`):
`SizeWithUnitConverter('B', result_type=int)` with the default byte ladder. -/
def max_size_converter : SizeWithUnitConverter :=
  { unit := "B", unit_map := default_unit_map }

/-- The unit map of `storage_param_type` (`_params.py`): the reciprocal ladder
scaled so that GB = 1. -/
def storage_unit_map : List (String × ℚ) :=
  [("B", 1 / (1024 * 1024 * 1024)), ("kB", 1 / (1024 * 1024)),
   ("MB", 1 / 1024), ("GB", 1), ("TB", 1024)]

/-- The converter of `storage_param_type` (`_params.py`):
`SizeWithUnitConverter('GB', result_type=int, unit_map=...)`. -/
def storage_converter : SizeWithUnitConverter :=
  { unit := "GB", unit_map := storage_unit_map }

/-! ### Binary64 value semantics

`SizeWithUnitConverter.__call__` computes `uvals * int(numeric_part)` where
`uvals` is a CPython float, so the true division, the int-to-float
conversion and the multiplication all round to 53-bit binary64 precision,
and an out-of-range value raises `OverflowError`.  The following defs model
that value semantics with integer arithmetic (round to nearest, ties to
even, unbounded exponent with a separate overflow bound of `2^1024`;
subnormal underflow is not modelled, since no value reachable through the
configured unit maps is below `2^-40`). -/

/-- Bit length of a natural number, with explicit structural fuel so that it
evaluates inside the kernel (`bitlen n = Nat.log2 n + 1` for `n > 0`). -/
def bitlenAux : ℕ → ℕ → ℕ
  | 0, _ => 0
  | fuel + 1, n => if n = 0 then 0 else bitlenAux fuel (n / 2) + 1

/-- Bit length (`n` itself is always enough fuel). -/
def bitlen (n : ℕ) : ℕ := bitlenAux n n

/-- Exponent estimate placing `A / B` scaled by `2 ^ rneS A B` near
`[2^52, 2^53)`. -/
def rneS (A B : ℕ) : ℤ := 52 - (bitlen A : ℤ) + (bitlen B : ℤ)

/-- Scaled numerator: `A * 2 ^ s` folded into the numerator when `s ≥ 0`. -/
def rneA1 (A B : ℕ) : ℕ := A * 2 ^ (rneS A B).toNat

/-- Scaled denominator: the `2 ^ -s` factor when `s < 0`. -/
def rneB1 (A B : ℕ) : ℕ := B * 2 ^ (-rneS A B).toNat

/-- One correction step so that the quotient lies in `[2^52, 2^53)`. -/
def rneA2 (A B : ℕ) : ℕ :=
  if rneA1 A B < 2 ^ 52 * rneB1 A B then 2 * rneA1 A B else rneA1 A B

/-- The exponent matching `rneA2`. -/
def rneS2 (A B : ℕ) : ℤ :=
  if rneA1 A B < 2 ^ 52 * rneB1 A B then rneS A B + 1 else rneS A B

/-- Round-to-nearest-even of the positive ratio `A / B` at 53 significant
bits: returns the rounded significand and the binary exponent, so that the
value represented is `significand * 2 ^ exponent`. -/
def rneScale (A B : ℕ) : ℕ × ℤ :=
  let q := rneA2 A B / rneB1 A B
  let r := rneA2 A B % rneB1 A B
  (if 2 * r < rneB1 A B then q
   else if rneB1 A B < 2 * r then q + 1
   else if q % 2 = 0 then q else q + 1,
   -rneS2 A B)

/-- A CPython float by value: `m * 2 ^ e`. -/
structure PyFloat : Type where
  m : ℤ
  e : ℤ
deriving Repr, DecidableEq

/-- The rational value of a model float. -/
def PyFloat.toRat (f : PyFloat) : ℚ := (f.m : ℚ) * (2 : ℚ) ^ f.e

/-- Whether the value is at or beyond the binary64 range (`≥ 2^1024` in
magnitude), in which case CPython raises `OverflowError` (directly for the
conversions, or through `inf` followed by `int()` for the product). -/
def PyFloat.overflows (f : PyFloat) : Bool :=
  if 0 ≤ f.e then decide (2 ^ 1024 ≤ f.m.natAbs * 2 ^ f.e.toNat) else false

/-- The correctly rounded binary64 of the exact fraction `N / D` (CPython
true division of two numbers whose exact values are `N` and `D`...). -/
def pyFloatOfFrac (N D : ℤ) : Except String PyFloat :=
  if D = 0 then Except.error "ZeroDivisionError"
  else if N = 0 then Except.ok ⟨0, 0⟩
  else
    let p := rneScale N.natAbs D.natAbs
    let f : PyFloat :=
      ⟨if (N < 0) = (D < 0) then (p.1 : ℤ) else -(p.1 : ℤ), p.2⟩
    if f.overflows then Except.error "OverflowError" else Except.ok f

/-- CPython `/` on the two looked-up unit-map numbers (ints in the default
map, floats in the storage map; the map stores their exact values). -/
def pyDiv (x y : ℚ) : Except String PyFloat :=
  pyFloatOfFrac (x.num * (y.den : ℤ)) ((x.den : ℤ) * y.num)

/-- CPython `float(n)` of an int (`PyLong_AsDouble`): round to nearest even,
`OverflowError` out of range. -/
def pyFloatOfInt (n : ℤ) : Except String PyFloat := pyFloatOfFrac n 1

/-- CPython `float * float` (the int operand having been converted first):
the exact product re-rounded to 53 bits, `OverflowError` past the range. -/
def pyMul (f g : PyFloat) : Except String PyFloat :=
  if f.m = 0 ∨ g.m = 0 then Except.ok ⟨0, 0⟩
  else
    let p := rneScale (f.m * g.m).natAbs 1
    let h : PyFloat :=
      ⟨if (f.m < 0) = (g.m < 0) then (p.1 : ℤ) else -(p.1 : ℤ),
       p.2 + f.e + g.e⟩
    if h.overflows then Except.error "OverflowError" else Except.ok h

/-- CPython `int()` of a finite float: truncation toward zero. -/
def pyTruncFloat (f : PyFloat) : ℤ :=
  if 0 ≤ f.e then f.m * 2 ^ f.e.toNat else f.m.tdiv (2 ^ (-f.e).toNat)

/-- `SizeWithUnitConverter.__call__` with the binary64 value semantics of
CPython made explicit: the same digit-run split and unit lookups as
`size_with_unit_call`, then `uvals = lookup / base` as a correctly rounded
float, `float(int(numeric_part))`, their float product, and truncation to
int.  The digit split (`Char.isDigit`) agrees with Python's per-character
`str.isdigit` and `int()` on ASCII input; the Unicode decimal digits that
`str.isdigit` also accepts are outside this model, so the theorems below
restrict to ASCII inputs. -/
def size_with_unit_call_float (c : SizeWithUnitConverter) (value : String) :
    Except String Int :=
  let numeric_part := value.toList.takeWhile Char.isDigit
  let unit_part := value.toList.dropWhile Char.isDigit
  match (if unit_part.isEmpty then Option.some (1 : ℚ)
         else dlookup c.unit_map (String.mk unit_part)) with
  | Option.none => Except.error "ValueError"
  | Option.some unum =>
    match (if c.unit.isEmpty then Option.some (1 : ℚ)
           else dlookup c.unit_map c.unit) with
    | Option.none => Except.error "ValueError"
    | Option.some uden =>
      if numeric_part.isEmpty then Except.error "ValueError"
      else
        (pyDiv unum uden).bind (fun uvals =>
          (pyFloatOfInt (digitsToNat numeric_part : ℤ)).bind (fun nf =>
            (pyMul uvals nf).map pyTruncFloat))

/-! ### Association-list lemmas -/

theorem dlookup_cons (p : String × α) (rest : List (String × α)) (k : String) :
    dlookup (p :: rest) k
      = if p.1 == k then Option.some p.2 else dlookup rest k := by
  by_cases h : p.1 == k
  · simp [dlookup, List.find?_cons, h]
  · simp [dlookup, List.find?_cons, h]

theorem dmem_cons (p : String × α) (rest : List (String × α)) (k : String) :
    dmem (p :: rest) k = ((p.1 == k) || dmem rest k) := by
  simp [dmem]

theorem ddel_cons (p : String × α) (rest : List (String × α)) (k : String) :
    ddel (p :: rest) k
      = if p.1 == k then ddel rest k else p :: ddel rest k := by
  simp only [ddel, List.filter_cons, bne]
  by_cases h : p.1 == k <;> simp [h]

theorem dlookup_eq_none_iff (d : List (String × α)) (k : String) :
    dlookup d k = Option.none ↔ dmem d k = false := by
  induction d with
  | nil => simp [dlookup, dmem]
  | cons p rest ih =>
    rw [dlookup_cons, dmem_cons]
    by_cases h : p.1 == k
    · simp [h]
    · simp [h, ih]

theorem dlookup_some_of_dmem (d : List (String × α)) (k : String)
    (h : dmem d k = true) : ∃ v, dlookup d k = Option.some v := by
  cases hl : dlookup d k with
  | none => rw [dlookup_eq_none_iff] at hl; rw [hl] at h; cases h
  | some v => exact ⟨v, rfl⟩

theorem dmem_of_dlookup_some (d : List (String × α)) (k : String) (v : α)
    (h : dlookup d k = Option.some v) : dmem d k = true := by
  by_contra hc
  rw [Bool.not_eq_true, ← dlookup_eq_none_iff] at hc
  rw [h] at hc
  cases hc

theorem dlookup_mem_values (d : List (String × α)) (k : String) (v : α)
    (h : dlookup d k = Option.some v) : v ∈ d.map (fun p => p.2) := by
  induction d with
  | nil => simp [dlookup] at h
  | cons p rest ih =>
    rw [dlookup_cons] at h
    by_cases hk : p.1 == k
    · rw [if_pos hk, Option.some.injEq] at h
      simp [← h]
    · rw [if_neg hk] at h
      simp [ih h]

theorem dlookup_inj (d : List (String × α)) (k1 k2 : String) (v : α)
    (hvals : (d.map (fun p => p.2)).Nodup)
    (h1 : dlookup d k1 = Option.some v) (h2 : dlookup d k2 = Option.some v) :
    k1 = k2 := by
  induction d with
  | nil => simp [dlookup] at h1
  | cons p rest ih =>
    simp only [List.map_cons, List.nodup_cons] at hvals
    rw [dlookup_cons] at h1 h2
    by_cases hk1 : p.1 == k1
    · by_cases hk2 : p.1 == k2
      · rw [beq_iff_eq] at hk1 hk2; rw [← hk1, ← hk2]
      · rw [if_pos hk1, Option.some.injEq] at h1
        rw [if_neg hk2] at h2
        exact absurd (h1 ▸ dlookup_mem_values rest k2 v h2) hvals.1
    · by_cases hk2 : p.1 == k2
      · rw [if_pos hk2, Option.some.injEq] at h2
        rw [if_neg hk1] at h1
        exact absurd (h2 ▸ dlookup_mem_values rest k1 v h1) hvals.1
      · rw [if_neg hk1] at h1
        rw [if_neg hk2] at h2
        exact ih hvals.2 h1 h2

theorem ddel_dlookup_self (d : List (String × α)) (k : String) :
    dlookup (ddel d k) k = Option.none := by
  induction d with
  | nil => simp [ddel, dlookup]
  | cons p rest ih =>
    rw [ddel_cons]
    by_cases h : p.1 == k
    · rw [if_pos h]; exact ih
    · rw [if_neg h, dlookup_cons, if_neg h]; exact ih

theorem ddel_dlookup_other (d : List (String × α)) (k k' : String)
    (h : k' ≠ k) : dlookup (ddel d k) k' = dlookup d k' := by
  induction d with
  | nil => simp [ddel]
  | cons p rest ih =>
    rw [ddel_cons, dlookup_cons]
    by_cases hp : p.1 == k
    · rw [if_pos hp]
      have : ¬ (p.1 == k') = true := by
        rw [beq_iff_eq] at hp ⊢; rw [hp]; exact fun he => h he.symm
      rw [if_neg this]
      exact ih
    · rw [if_neg hp, dlookup_cons]
      by_cases hq : p.1 == k'
      · rw [if_pos hq, if_pos hq]
      · rw [if_neg hq, if_neg hq]; exact ih

theorem foldl_ddel_dlookup_none (l : List String) (d : List (String × α))
    (k : String) (hd : dlookup d k = Option.none) :
    dlookup (l.foldl (fun n k => ddel n k) d) k = Option.none := by
  induction l generalizing d with
  | nil => exact hd
  | cons a rest ih =>
    rw [List.foldl_cons]
    apply ih
    by_cases hka : k = a
    · rw [hka]; exact ddel_dlookup_self d a
    · rw [ddel_dlookup_other d a k hka]; exact hd

theorem foldl_ddel_dlookup_mem (l : List String) (d : List (String × α))
    (k : String) (h : k ∈ l) :
    dlookup (l.foldl (fun n k => ddel n k) d) k = Option.none := by
  induction l generalizing d with
  | nil => cases h
  | cons a rest ih =>
    rw [List.foldl_cons]
    by_cases hr : k ∈ rest
    · exact ih (ddel d a) hr
    · have hka : k = a := by
        rcases List.mem_cons.mp h with h1 | h1
        · exact h1
        · exact absurd h1 hr
      exact foldl_ddel_dlookup_none rest (ddel d a) k
        (hka ▸ ddel_dlookup_self d a)

theorem foldl_ddel_dlookup_not_mem (l : List String) (d : List (String × α))
    (k : String) (h : k ∉ l) :
    dlookup (l.foldl (fun n k => ddel n k) d) k = dlookup d k := by
  induction l generalizing d with
  | nil => rfl
  | cons a rest ih =>
    rw [List.foldl_cons]
    have hka : k ≠ a := fun hk => h (hk ▸ List.mem_cons_self a rest)
    rw [ih (ddel d a) (fun hk => h (List.mem_cons_of_mem a hk)),
      ddel_dlookup_other d a k hka]

theorem dinsert_of_not_dmem (d : List (String × α)) (k : String) (v : α)
    (h : dmem d k = false) : dinsert d k v = d ++ [(k, v)] := by
  simp [dinsert, h]

theorem dlookup_append_single (d : List (String × α)) (k k' : String) (v : α)
    (h : k' ≠ k) : dlookup (d ++ [(k, v)]) k' = dlookup d k' := by
  induction d with
  | nil =>
    simp only [List.nil_append, dlookup_cons]
    rw [if_neg (by rw [beq_iff_eq]; exact fun he => h he.symm)]
  | cons p rest ih =>
    rw [List.cons_append, dlookup_cons, dlookup_cons]
    by_cases hq : p.1 == k'
    · rw [if_pos hq, if_pos hq]
    · rw [if_neg hq, if_neg hq]; exact ih

theorem dlookup_map_replace (d : List (String × α)) (k k' : String) (v : α)
    (h : k' ≠ k) :
    dlookup (d.map (fun p => if p.1 == k then (k, v) else p)) k'
      = dlookup d k' := by
  induction d with
  | nil => rfl
  | cons p rest ih =>
    rw [List.map_cons]
    by_cases hp : p.1 == k
    · rw [if_pos hp, dlookup_cons, dlookup_cons]
      have h1 : ¬ ((k, v).1 == k') = true := by
        rw [beq_iff_eq]; exact fun he => h he.symm
      have h2 : ¬ (p.1 == k') = true := by
        rw [beq_iff_eq] at hp ⊢; rw [hp]; exact fun he => h he.symm
      rw [if_neg h1, if_neg h2]
      exact ih
    · rw [if_neg hp, dlookup_cons, dlookup_cons]
      by_cases hq : p.1 == k'
      · rw [if_pos hq, if_pos hq]
      · rw [if_neg hq, if_neg hq]; exact ih

theorem dinsert_dlookup_self (d : List (String × α)) (k : String) (v : α) :
    dlookup (dinsert d k v) k = Option.some v := by
  by_cases hm : dmem d k
  · simp only [dinsert, hm, if_true]
    induction d with
    | nil => simp [dmem] at hm
    | cons p rest ih =>
      rw [List.map_cons]
      by_cases hp : p.1 == k
      · rw [if_pos hp, dlookup_cons,
          if_pos (show ((k, v).1 == k) = true by rw [beq_iff_eq])]
      · rw [Bool.not_eq_true] at hp
        rw [dmem_cons, hp, Bool.false_or] at hm
        rw [if_neg (by simp [hp]), dlookup_cons, if_neg (by simp [hp])]
        exact ih hm
  · rw [Bool.not_eq_true] at hm
    rw [dinsert_of_not_dmem d k v hm]
    induction d with
    | nil => simp [dlookup_cons]
    | cons p rest ih =>
      rw [dmem_cons, Bool.or_eq_false_iff] at hm
      rw [List.cons_append, dlookup_cons, if_neg (by simp [hm.1])]
      exact ih hm.2

theorem dinsert_dlookup_other (d : List (String × α)) (k k' : String) (v : α)
    (h : k' ≠ k) : dlookup (dinsert d k v) k' = dlookup d k' := by
  by_cases hm : dmem d k
  · simp only [dinsert, hm, if_true]
    exact dlookup_map_replace d k k' v h
  · rw [Bool.not_eq_true] at hm
    rw [dinsert_of_not_dmem d k v hm]
    exact dlookup_append_single d k k' v h

theorem dmem_append (d1 d2 : List (String × α)) (k : String) :
    dmem (d1 ++ d2) k = (dmem d1 k || dmem d2 k) := by
  simp [dmem]

theorem foldl_dinsert_fresh (g : β → String) (f : β → α) (l : List β)
    (acc : List (String × α)) (hfresh : ∀ b ∈ l, dmem acc (g b) = false)
    (hinj : (l.map g).Nodup) :
    l.foldl (fun d b => dinsert d (g b) (f b)) acc
      = acc ++ l.map (fun b => (g b, f b)) := by
  induction l generalizing acc with
  | nil => simp
  | cons a rest ih =>
    simp only [List.map_cons, List.nodup_cons, List.mem_map] at hinj
    rw [List.foldl_cons,
      dinsert_of_not_dmem acc (g a) (f a) (hfresh a (List.mem_cons_self a rest)),
      ih (acc ++ [(g a, f a)])]
    · simp
    · intro b hb
      rw [dmem_append]
      have h1 : dmem acc (g b) = false := hfresh b (List.mem_cons_of_mem a hb)
      have h2 : dmem [(g a, f a)] (g b) = false := by
        rw [dmem_cons]
        simp only [dmem, List.any_nil, Bool.or_false, beq_eq_false_iff_ne, ne_eq]
        intro he
        exact hinj.1 ⟨b, hb, he.symm⟩
      simp [h1, h2]
    · exact hinj.2

theorem dlookup_map_pairs (g : β → String) (f : β → α) (l : List β) (b0 : β)
    (hinj : (l.map g).Nodup) (hb0 : b0 ∈ l) :
    dlookup (l.map (fun b => (g b, f b))) (g b0) = Option.some (f b0) := by
  induction l with
  | nil => cases hb0
  | cons a rest ih =>
    simp only [List.map_cons, List.nodup_cons, List.mem_map] at hinj
    rcases List.mem_cons.mp hb0 with h | h
    · subst h
      rw [List.map_cons, dlookup_cons, if_pos (by rw [beq_iff_eq])]
    · have hne : ¬ ((g a, f a).1 == g b0) = true := by
        rw [beq_iff_eq]
        intro he
        exact hinj.1 ⟨b0, h, he.symm⟩
      rw [List.map_cons, dlookup_cons, if_neg hne]
      exact ih hinj.2 h

theorem mem_dinsert (d : List (String × α)) (k : String) (v : α)
    (x : String × α) (hx : x ∈ dinsert d k v) : x = (k, v) ∨ x ∈ d := by
  by_cases hm : dmem d k
  · simp only [dinsert, hm, if_true, List.mem_map] at hx
    rcases hx with ⟨p, hp, he⟩
    by_cases hpk : p.1 == k
    · left; rw [if_pos hpk] at he; exact he.symm
    · right; rw [if_neg hpk] at he; exact he ▸ hp
  · rw [Bool.not_eq_true] at hm
    rw [dinsert_of_not_dmem d k v hm, List.mem_append] at hx
    rcases hx with hx | hx
    · right; exact hx
    · left; simpa using hx

theorem foldl_dinsert_all_values (g : β → String) (f : β → α) (l : List β)
    (acc : List (String × α)) (p : α → Bool)
    (hl : ∀ b ∈ l, p (f b) = false) (hacc : ∀ x ∈ acc, p x.2 = false) :
    ∀ x ∈ l.foldl (fun d b => dinsert d (g b) (f b)) acc, p x.2 = false := by
  induction l generalizing acc with
  | nil => exact hacc
  | cons a rest ih =>
    rw [List.foldl_cons]
    exact ih (dinsert acc (g a) (f a))
      (fun b hb => hl b (List.mem_cons_of_mem a hb))
      (fun x hx => by
        rcases mem_dinsert acc (g a) (f a) x hx with h | h
        · rw [h]; exact hl a (List.mem_cons_self a rest)
        · exact hacc x h)

theorem mem_matchedKeys (mp : List (String × String)) (ns : Namespace)
    (k : String) :
    k ∈ matchedKeys mp ns ↔ k ∈ nsVars ns ∧ dmem mp k = true := by
  simp [matchedKeys, List.mem_filter]

theorem dget_eq_of_dlookup [Inhabited α] (d : List (String × α)) (k : String)
    (v : α) (h : dlookup d k = Option.some v) : dget d k = v := by
  simp [dget, h]

theorem dmem_iff_mem_keys (d : List (String × α)) (k : String) :
    dmem d k = true ↔ k ∈ d.map (fun p => p.1) := by
  rw [dmem, List.any_eq_true]
  constructor
  · rintro ⟨p, hp, he⟩
    rw [beq_iff_eq] at he
    exact he ▸ List.mem_map_of_mem _ hp
  · intro h
    rcases List.mem_map.mp h with ⟨p, hp, he⟩
    exact ⟨p, hp, by rw [beq_iff_eq, he]⟩

/-- The collected `properties` dict of `_expansion_validator_impl` in closed
form: when the property names of the matched keys are pairwise distinct, the
dict is the in-order list of (property name, namespace value) pairs. -/
theorem expansion_validator_impl_eq (mp : List (String × String))
    (dest ty : String) (ns : Namespace)
    (hinj : ((matchedKeys mp ns).map (fun k => dget mp k)).Nodup) :
    expansion_validator_impl mp dest ty ns
      = (matchedKeys mp ns).foldl (fun n k => ddel n k)
          (if ((matchedKeys mp ns).map
                (fun k => (dget mp k, dget ns k))).any (fun p => truthy p.2)
             then dinsert ns dest (Val.model ty
               ((matchedKeys mp ns).map (fun k => (dget mp k, dget ns k))))
             else ns) := by
  simp only [expansion_validator_impl]
  rw [foldl_dinsert_fresh (fun k => dget mp k) (fun k => dget ns k)
    (matchedKeys mp ns) [] (fun b _ => rfl) hinj]
  rw [List.nil_append]
  rfl

/-- Shared helper: with any collected value truthy, the aggregator stores the
model built from every matched key under the destination and deletes the
matched keys. -/
theorem expansion_builds_model
    (mp : List (String × String)) (dest ty : String) (ns : Namespace)
    (hinj : ((matchedKeys mp ns).map (fun k => dget mp k)).Nodup)
    (hdest : dmem mp dest = false)
    (hany : (matchedKeys mp ns).any (fun k => truthy (dget ns k)) = true) :
    dlookup (expansion_validator_impl mp dest ty ns) dest
      = Option.some (Val.model ty
          ((matchedKeys mp ns).map (fun k => (dget mp k, dget ns k))))
    ∧ ∀ k ∈ matchedKeys mp ns,
        dlookup (expansion_validator_impl mp dest ty ns) k = Option.none := by
  rw [expansion_validator_impl_eq mp dest ty ns hinj]
  have hcond : ((matchedKeys mp ns).map
      (fun k => (dget mp k, dget ns k))).any (fun p => truthy p.2) = true := by
    rw [List.any_eq_true]
    rcases List.any_eq_true.mp hany with ⟨k, hk, ht⟩
    exact ⟨(dget mp k, dget ns k), List.mem_map_of_mem _ hk, ht⟩
  rw [hcond, if_pos rfl]
  have hdm : dest ∉ matchedKeys mp ns := by
    intro hd
    rw [(mem_matchedKeys mp ns dest).mp hd |>.2] at hdest
    cases hdest
  constructor
  · rw [foldl_ddel_dlookup_not_mem (matchedKeys mp ns) _ dest hdm]
    exact dinsert_dlookup_self ns dest _
  · intro k hk
    exact foldl_ddel_dlookup_mem (matchedKeys mp ns) _ k hk

/-- C1 (amended): with any collected value truthy, the aggregator calls the
constructor with keyword arguments for every declared flag key present in the
namespace — the namespace value verbatim, `None` included for unsupplied
flags — stores the object under the destination, and deletes every declared
raw flag key present in the namespace. -/
theorem aggregator_kwargs_all_matched_and_purge
    (mp : List (String × String)) (dest ty : String) (ns : Namespace)
    (hinj : ((matchedKeys mp ns).map (fun k => dget mp k)).Nodup)
    (hdest : dmem mp dest = false)
    (hany : (matchedKeys mp ns).any (fun k => truthy (dget ns k)) = true) :
    dlookup (expansion_validator_impl mp dest ty ns) dest
      = Option.some (Val.model ty
          ((matchedKeys mp ns).map (fun k => (dget mp k, dget ns k))))
    ∧ ∀ k ∈ matchedKeys mp ns,
        dlookup (expansion_validator_impl mp dest ty ns) k = Option.none :=
  expansion_builds_model mp dest ty ns hinj hdest hany

/-- C1 (counterexample): with declared flags `a`, `b` and only `a` supplied
(`b` present as `None`), the constructor receives the keyword argument
`b = None` — the unsupplied property is not absent from the constructor call,
contradicting the claim as stated. -/
theorem aggregator_none_value_passed_as_kwarg :
    dlookup (expansion_validator_impl [("a", "a"), ("b", "b")] "dest" "T"
        [("a", Val.str "x"), ("b", Val.none)]) "dest"
      = Option.some (Val.model "T" [("a", Val.str "x"), ("b", Val.none)])
    ∧ ("b", Val.none) ∈ [("a", Val.str "x"), ("b", Val.none)] :=
  ⟨rfl, by simp⟩

/-- C1 (witness): the amended theorem applied to the two-flag schema with one
supplied value. -/
theorem aggregator_kwargs_all_matched_and_purge_witness :
    dlookup (expansion_validator_impl [("a", "a"), ("b", "b")] "dest" "T"
        [("a", Val.str "x"), ("b", Val.none)]) "dest"
      = Option.some (Val.model "T"
          ((matchedKeys [("a", "a"), ("b", "b")]
              [("a", Val.str "x"), ("b", Val.none)]).map
            (fun k => (dget [("a", "a"), ("b", "b")] k,
              dget [("a", Val.str "x"), ("b", Val.none)] k))))
    ∧ ∀ k ∈ matchedKeys [("a", "a"), ("b", "b")]
        [("a", Val.str "x"), ("b", Val.none)],
        dlookup (expansion_validator_impl [("a", "a"), ("b", "b")] "dest" "T"
          [("a", Val.str "x"), ("b", Val.none)]) k = Option.none :=
  aggregator_kwargs_all_matched_and_purge [("a", "a"), ("b", "b")] "dest" "T"
    [("a", Val.str "x"), ("b", Val.none)] (by decide) (by decide) (by decide)

/-- C2: when none of the collected values is truthy (`None`, `""`, `0`, `[]`
and `False` all count as not specified), the aggregator leaves the destination
field untouched and still deletes every scanned raw flag key from the
namespace. -/
theorem aggregator_no_truthy_value_no_build
    (mp : List (String × String)) (dest ty : String) (ns : Namespace)
    (hnone : ∀ k ∈ matchedKeys mp ns, truthy (dget ns k) = false)
    (hdest : dmem mp dest = false) :
    (∀ k ∈ matchedKeys mp ns,
        dlookup (expansion_validator_impl mp dest ty ns) k = Option.none)
    ∧ dlookup (expansion_validator_impl mp dest ty ns) dest
        = dlookup ns dest := by
  simp only [expansion_validator_impl]
  have hcond : ((matchedKeys mp ns).foldl
      (fun d k => dinsert d (dget mp k) (dget ns k)) []).any
        (fun p => truthy p.2) = false := by
    rw [List.any_eq_false]
    intro x hx
    rw [foldl_dinsert_all_values (fun k => dget mp k) (fun k => dget ns k)
      (matchedKeys mp ns) [] (fun v => truthy v) hnone (by intro x hx; cases hx)
      x hx]
    exact Bool.false_ne_true
  rw [hcond]
  have hdm : dest ∉ matchedKeys mp ns := by
    intro hd
    rw [(mem_matchedKeys mp ns dest).mp hd |>.2] at hdest
    cases hdest
  constructor
  · intro k hk
    exact foldl_ddel_dlookup_mem (matchedKeys mp ns) _ k hk
  · simpa using foldl_ddel_dlookup_not_mem (matchedKeys mp ns) ns dest hdm

/-- C2 (witness): a schema whose only flag is present as `None`: the flag is
purged, an unrelated field and the destination are untouched. -/
theorem aggregator_no_truthy_value_no_build_witness :
    (∀ k ∈ matchedKeys [("a", "a")] [("a", Val.none), ("c", Val.int 5)],
        dlookup (expansion_validator_impl [("a", "a")] "dest" "T"
          [("a", Val.none), ("c", Val.int 5)]) k = Option.none)
    ∧ dlookup (expansion_validator_impl [("a", "a")] "dest" "T"
          [("a", Val.none), ("c", Val.int 5)]) "dest"
        = dlookup [("a", Val.none), ("c", Val.int 5)] "dest" :=
  aggregator_no_truthy_value_no_build [("a", "a")] "dest" "T"
    [("a", Val.none), ("c", Val.int 5)] (by decide) (by decide)

/-- The `model_properties` dict in closed form: with pairwise distinct exposed
flag names it lists `(property_key, property_name)` in declaration order. -/
theorem build_model_properties_eq (args : List ArgDecl)
    (hkeys : (args.map argKey).Nodup) :
    build_model_properties args
      = args.map (fun a => (argKey a, argName a)) := by
  rw [build_model_properties,
    foldl_dinsert_fresh argKey argName args [] (fun b _ => rfl) hkeys,
    List.nil_append]

/-- C3: a schema entry declared as a `(source property, exposed flag)` pair:
the value supplied under the exposed flag name appears in the constructed
object keyed by the source property name, and is not keyed under the exposed
flag name. -/
theorem aggregator_pair_entry_keyed_by_source
    (args : List ArgDecl) (src exposed dest ty : String) (v : Val)
    (ns : Namespace)
    (hmem : ArgDecl.pair src exposed ∈ args)
    (hkeys : (args.map argKey).Nodup)
    (hnames : (args.map argName).Nodup)
    (hexp : exposed ∉ args.map argName)
    (hns : dlookup ns exposed = Option.some v)
    (hv : truthy v = true)
    (hnsNodup : (nsVars ns).Nodup)
    (hdest : dmem (build_model_properties args) dest = false) :
    ∃ kwargs,
      dlookup (expansion_validator_impl (build_model_properties args) dest ty
          ns) dest
        = Option.some (Val.model ty kwargs)
      ∧ dlookup kwargs src = Option.some v
      ∧ dlookup kwargs exposed = Option.none := by
  have hmpeq : build_model_properties args
      = args.map (fun a => (argKey a, argName a)) :=
    build_model_properties_eq args hkeys
  have hsnd : ((fun p : String × String => p.2)
      ∘ (fun a : ArgDecl => (argKey a, argName a))) = argName :=
    funext (fun a => rfl)
  have hlk : dlookup (build_model_properties args) exposed
      = Option.some src := by
    rw [hmpeq]
    exact dlookup_map_pairs argKey argName args (ArgDecl.pair src exposed)
      hkeys hmem
  have hget_exposed : dget (build_model_properties args) exposed = src :=
    dget_eq_of_dlookup _ _ _ hlk
  have hmem_mp : dmem (build_model_properties args) exposed = true :=
    dmem_of_dlookup_some _ _ _ hlk
  have hns_mem : exposed ∈ nsVars ns :=
    (dmem_iff_mem_keys ns exposed).mp (dmem_of_dlookup_some ns exposed v hns)
  have hmatched : exposed ∈ matchedKeys (build_model_properties args) ns :=
    (mem_matchedKeys _ ns exposed).mpr ⟨hns_mem, hmem_mp⟩
  have hvals : ((build_model_properties args).map
      (fun p => p.2)).Nodup := by
    rw [hmpeq, List.map_map, hsnd]
    exact hnames
  have hinj : ((matchedKeys (build_model_properties args) ns).map
      (fun k => dget (build_model_properties args) k)).Nodup := by
    apply List.Nodup.map_on
    · intro x hx y hy he
      rcases dlookup_some_of_dmem (build_model_properties args) x
        ((mem_matchedKeys _ ns x).mp hx).2 with ⟨vx, hvx⟩
      rcases dlookup_some_of_dmem (build_model_properties args) y
        ((mem_matchedKeys _ ns y).mp hy).2 with ⟨vy, hvy⟩
      rw [dget_eq_of_dlookup _ _ _ hvx, dget_eq_of_dlookup _ _ _ hvy] at he
      exact dlookup_inj _ x y vx hvals hvx (he ▸ hvy)
    · exact List.Nodup.filter _ hnsNodup
  have hany : (matchedKeys (build_model_properties args) ns).any
      (fun k => truthy (dget ns k)) = true := by
    rw [List.any_eq_true]
    exact ⟨exposed, hmatched,
      by rw [dget_eq_of_dlookup ns exposed v hns]; exact hv⟩
  obtain ⟨h1, _⟩ := expansion_builds_model (build_model_properties args)
    dest ty ns hinj hdest hany
  refine ⟨(matchedKeys (build_model_properties args) ns).map
    (fun k => (dget (build_model_properties args) k, dget ns k)), h1, ?_, ?_⟩
  · have hsrc : dlookup
        ((matchedKeys (build_model_properties args) ns).map
          (fun k => (dget (build_model_properties args) k, dget ns k)))
        (dget (build_model_properties args) exposed)
        = Option.some (dget ns exposed) :=
      dlookup_map_pairs (fun k => dget (build_model_properties args) k)
        (fun k => dget ns k) (matchedKeys (build_model_properties args) ns)
        exposed hinj hmatched
    rw [hget_exposed, dget_eq_of_dlookup ns exposed v hns] at hsrc
    exact hsrc
  · rw [dlookup_eq_none_iff]
    by_contra hcontra
    rw [Bool.not_eq_false, dmem_iff_mem_keys] at hcontra
    rcases List.mem_map.mp hcontra with ⟨q, hq, hqe⟩
    rcases List.mem_map.mp hq with ⟨k0, hk0, hpair⟩
    rcases dlookup_some_of_dmem (build_model_properties args) k0
      ((mem_matchedKeys _ ns k0).mp hk0).2 with ⟨w, hw⟩
    have hwvals : w ∈ (build_model_properties args).map (fun p => p.2) :=
      dlookup_mem_values _ k0 w hw
    rw [hmpeq, List.map_map, hsnd] at hwvals
    apply hexp
    have : dget (build_model_properties args) k0 = exposed := by
      rw [← hpair] at hqe
      exact hqe
    rw [dget_eq_of_dlookup _ _ _ hw] at this
    exact this ▸ hwvals

/-- C3 (witness): the theorem at the schema exposing `server_name` as
`output_server_name`, with the value supplied under the exposed name. -/
theorem aggregator_pair_entry_keyed_by_source_witness :
    ∃ kwargs,
      dlookup (expansion_validator_impl
          (build_model_properties [ArgDecl.pair "server_name"
            "output_server_name"]) "params" "M"
          [("output_server_name", Val.str "srv")]) "params"
        = Option.some (Val.model "M" kwargs)
      ∧ dlookup kwargs "server_name" = Option.some (Val.str "srv")
      ∧ dlookup kwargs "output_server_name" = Option.none :=
  aggregator_pair_entry_keyed_by_source
    [ArgDecl.pair "server_name" "output_server_name"]
    "server_name" "output_server_name" "params" "M" (Val.str "srv")
    [("output_server_name", Val.str "srv")]
    (by decide) (by decide) (by decide) (by decide) rfl rfl
    (by decide) (by decide)

/-! ### Theorems about `validate_subnet` and
`validate_managed_instance_storage_size` -/

theorem truthyStr_of_is_valid_resource_id (o : Option String)
    (h : is_valid_resource_id o = true) : truthyStr o = true := by
  cases o with
  | none => cases h
  | some s =>
    by_cases he : s = ""
    · subst he
      exact absurd h (by decide)
    · simp only [truthyStr, Bool.not_eq_true']
      rw [Bool.eq_false_iff]
      intro hc
      exact he ((String.isEmpty_iff s).mp hc)

/-- C6: a short subnet name together with a vnet name makes `validate_subnet`
store the synthesized fully qualified identifier (subscription, the
namespace's resource group, the fixed `Microsoft.Network`,
`virtualNetworks`/`subnets` segments, vnet name, subnet name) back into the
subnet field, and remove the vnet-name field. -/
theorem validate_subnet_synthesizes_id (subscription sn vn : String)
    (ns : SubnetNamespace)
    (hsub : ns.virtual_network_subnet_id = Option.some sn)
    (hvnet : ns.vnet_name = Option.some vn)
    (hnotid : is_valid_resource_id (Option.some sn) = false)
    (hsn : sn ≠ "") (hvn : vn ≠ "") :
    validate_subnet subscription ns =
      (Option.none,
       { virtual_network_subnet_id := Option.some (resource_id subscription
           ns.resource_group_name "Microsoft.Network" "virtualNetworks" vn
           "subnets" sn),
         vnet_name := Option.none,
         resource_group_name := ns.resource_group_name }) := by
  obtain ⟨sid, vnm, rg⟩ := ns
  simp only at hsub hvnet ⊢
  subst hsub hvnet
  have h1 : truthyStr (Option.some sn) = true := by
    simp only [truthyStr, Bool.not_eq_true']
    rw [Bool.eq_false_iff]
    intro hc
    exact hsn ((String.isEmpty_iff sn).mp hc)
  have h2 : truthyStr (Option.some vn) = true := by
    simp only [truthyStr, Bool.not_eq_true']
    rw [Bool.eq_false_iff]
    intro hc
    exact hvn ((String.isEmpty_iff vn).mp hc)
  unfold validate_subnet
  simp [h1, h2, hnotid]

/-- C6 (witness): the canonical example of the spec, evaluated to the full
literal identifier. -/
theorem validate_subnet_synthesizes_id_witness :
    validate_subnet "S"
        ⟨Option.some "mysubnet", Option.some "myvnet", "RG"⟩ =
      (Option.none,
       ⟨Option.some ("/subscriptions/S/resourceGroups/RG/providers/" ++
          "Microsoft.Network/virtualNetworks/myvnet/subnets/mysubnet"),
        Option.none, "RG"⟩) :=
  validate_subnet_synthesizes_id "S" "mysubnet" "myvnet"
    ⟨Option.some "mysubnet", Option.some "myvnet", "RG"⟩
    rfl rfl (by decide) (by decide) (by decide)

/-- C7 (counterexample): a vnet name supplied with no subnet at all also
raises the usage error, although the subnet is neither a fully qualified
identifier (first listed combination) nor a given short name (second listed
combination) — a third raising combination the claim omits. -/
theorem validate_subnet_error_on_vnet_without_subnet :
    (validate_subnet "S" ⟨Option.none, Option.some "myvnet", "RG"⟩).1
      = Option.some
          "incorrect usage: [--subnet ID | --subnet NAME --vnet-name NAME]"
    ∧ is_valid_resource_id (Option.none : Option String) = false
    ∧ truthyStr (Option.none : Option String) = false := by
  refine ⟨rfl, rfl, rfl⟩

/-- C7 (amended): `validate_subnet` raises exactly for the three inconsistent
combinations — fully qualified subnet with a vnet name, short subnet name
without a vnet name, and a vnet name without a subnet — and passes the
namespace through unchanged when the subnet is already fully qualified with
no vnet name, or when neither is given. -/
theorem validate_subnet_error_iff (subscription : String)
    (ns : SubnetNamespace) :
    ((validate_subnet subscription ns).1.isSome = true ↔
      (is_valid_resource_id ns.virtual_network_subnet_id = true ∧
        truthyStr ns.vnet_name = true) ∨
      (truthyStr ns.virtual_network_subnet_id = true ∧
        is_valid_resource_id ns.virtual_network_subnet_id = false ∧
        truthyStr ns.vnet_name = false) ∨
      (truthyStr ns.virtual_network_subnet_id = false ∧
        truthyStr ns.vnet_name = true))
    ∧ (ns.vnet_name = Option.none →
        (is_valid_resource_id ns.virtual_network_subnet_id = true ∨
          truthyStr ns.virtual_network_subnet_id = false) →
        validate_subnet subscription ns = (Option.none, ns)) := by
  have himp := truthyStr_of_is_valid_resource_id ns.virtual_network_subnet_id
  constructor
  · unfold validate_subnet
    cases hid : is_valid_resource_id ns.virtual_network_subnet_id <;>
      cases hts : truthyStr ns.virtual_network_subnet_id <;>
        cases htv : truthyStr ns.vnet_name <;>
          simp_all
  · intro hvn hgood
    have htv : truthyStr ns.vnet_name = false := by rw [hvn]; rfl
    have hsame : { ns with vnet_name := Option.none } = ns := by
      obtain ⟨a, b, c⟩ := ns
      simp only at hvn
      rw [hvn]
    unfold validate_subnet
    rcases hgood with hid | hts
    · rw [hid, htv]
      simp [hsame]
    · rw [hts, htv]
      simp [hsame]

/-- C7 (witness): the amended theorem's pass-through part at a fully
qualified subnet with no vnet name. -/
theorem validate_subnet_error_iff_witness :
    validate_subnet "S" ⟨Option.some "/subscriptions/x/y", Option.none, "RG"⟩
      = (Option.none,
         ⟨Option.some "/subscriptions/x/y", Option.none, "RG"⟩) :=
  (validate_subnet_error_iff "S"
      ⟨Option.some "/subscriptions/x/y", Option.none, "RG"⟩).2
    rfl (Or.inl (by decide))

/-- C9: whenever `validate_subnet` raises, the namespace is returned entirely
unmodified: the subnet field keeps its value and the vnet-name field is not
removed, because the deletion after the case split is never reached. -/
theorem validate_subnet_error_leaves_namespace (subscription : String)
    (ns : SubnetNamespace)
    (herr : (validate_subnet subscription ns).1.isSome = true) :
    (validate_subnet subscription ns).2 = ns := by
  unfold validate_subnet at herr ⊢
  split_ifs at herr ⊢
  · simp at herr
  · simp at herr
  · rfl

/-- C9 (witness): the error case of a short subnet name with no vnet name
leaves the namespace untouched. -/
theorem validate_subnet_error_leaves_namespace_witness :
    (validate_subnet "S" ⟨Option.some "mysubnet", Option.none, "RG"⟩).2
        = ⟨Option.some "mysubnet", Option.none, "RG"⟩
    ∧ (validate_subnet "S"
        ⟨Option.some "mysubnet", Option.none, "RG"⟩).1.isSome = true :=
  ⟨validate_subnet_error_leaves_namespace "S"
      ⟨Option.some "mysubnet", Option.none, "RG"⟩ (by decide),
    by decide⟩

/-- C8: `validate_managed_instance_storage_size` passes exactly when the
storage size is absent or divisible by 32 (`0`, being falsy, passes through
the absent branch but is also divisible by 32), raises the usage error in
every other case, and never mutates the namespace. -/
theorem storage_size_pass_iff (ns : ManagedInstanceNamespace) :
    ((validate_managed_instance_storage_size ns).1 = Option.none ↔
      ns.storage_size_in_gb = Option.none ∨
        ∃ n : Int, ns.storage_size_in_gb = Option.some n ∧ n % 32 = 0)
    ∧ (validate_managed_instance_storage_size ns).2 = ns := by
  obtain ⟨s⟩ := ns
  refine ⟨?_, ?_⟩
  · cases s with
    | none => simp [validate_managed_instance_storage_size, truthyInt]
    | some n =>
      by_cases hz : n = 0
      · subst hz
        simp [validate_managed_instance_storage_size, truthyInt]
      · by_cases hm : n % 32 = 0
        · have hd : (32 : ℤ) ∣ n := Int.dvd_of_emod_eq_zero hm
          simp [validate_managed_instance_storage_size, truthyInt, hz, hm, hd]
        · have hd : ¬ (32 : ℤ) ∣ n := fun h => hm (Int.emod_eq_zero_of_dvd h)
          simp [validate_managed_instance_storage_size, truthyInt, hz, hm, hd]
  · unfold validate_managed_instance_storage_size
    split_ifs <;> rfl

/-! ### Theorems about `SizeWithUnitConverter` -/

theorem takeWhile_append_of_all (p : α → Bool) (l1 l2 : List α)
    (h : ∀ c ∈ l1, p c = true) :
    (l1 ++ l2).takeWhile p = l1 ++ l2.takeWhile p := by
  induction l1 with
  | nil => simp
  | cons a t ih =>
    rw [List.cons_append, List.takeWhile_cons,
      if_pos (h a (List.mem_cons_self a t)),
      ih (fun c hc => h c (List.mem_cons_of_mem a hc)), List.cons_append]

theorem dropWhile_append_of_all (p : α → Bool) (l1 l2 : List α)
    (h : ∀ c ∈ l1, p c = true) :
    (l1 ++ l2).dropWhile p = l2.dropWhile p := by
  induction l1 with
  | nil => simp
  | cons a t ih =>
    rw [List.cons_append, List.dropWhile_cons,
      if_pos (h a (List.mem_cons_self a t))]
    exact ih (fun c hc => h c (List.mem_cons_of_mem a hc))

theorem dropWhile_eq_self_of_takeWhile_nil (p : α → Bool) (l : List α)
    (h : l.takeWhile p = []) : l.dropWhile p = l := by
  cases l with
  | nil => rfl
  | cons a t =>
    rw [List.takeWhile_cons] at h
    by_cases hp : p a = true
    · rw [if_pos hp] at h; cases h
    · rw [List.dropWhile_cons, if_neg hp]

theorem pyTrunc_intCast (a : ℤ) : pyTrunc ((a : ℚ)) = a := by
  rw [pyTrunc]
  by_cases h : (a : ℚ) < 0
  · rw [if_pos h, Int.ceil_intCast]
  · rw [if_neg h, Int.floor_intCast]

theorem pyTrunc_eq_zero (q : ℚ) (h0 : 0 ≤ q) (h1 : q < 1) : pyTrunc q = 0 := by
  rw [pyTrunc, if_neg (not_lt.mpr h0)]
  exact Int.floor_eq_zero_iff.mpr (Set.mem_Ico.mpr ⟨h0, h1⟩)

/-- The converter on an input made of a digit run followed by a unit suffix:
both unit multipliers resolve and the result is the truncated product. -/
theorem size_call_concat (c : SizeWithUnitConverter) (s us : List Char)
    (unum uden : ℚ)
    (hdig : ∀ ch ∈ s, ch.isDigit = true) (hne : s ≠ [])
    (hus_take : us.takeWhile Char.isDigit = [])
    (hus_ne : us ≠ [])
    (hlku : dlookup c.unit_map (String.mk us) = Option.some unum)
    (hlkb : (if c.unit.isEmpty then Option.some (1 : ℚ)
             else dlookup c.unit_map c.unit) = Option.some uden) :
    size_with_unit_call c (String.mk (s ++ us))
      = Except.ok (pyTrunc (unum / uden * (digitsToNat s : ℚ))) := by
  have htake : (s ++ us).takeWhile Char.isDigit = s := by
    rw [takeWhile_append_of_all Char.isDigit s us hdig, hus_take,
      List.append_nil]
  have hdrop : (s ++ us).dropWhile Char.isDigit = us := by
    rw [dropWhile_append_of_all Char.isDigit s us hdig]
    exact dropWhile_eq_self_of_takeWhile_nil Char.isDigit us hus_take
  have hsne : s.isEmpty = false := by
    cases s with
    | nil => exact absurd rfl hne
    | cons a t => rfl
  have hune : us.isEmpty = false := by
    cases hc : us with
    | nil => exact absurd hc hus_ne
    | cons a t => rfl
  simp only [size_with_unit_call, String.toList]
  rw [htake, hdrop, hune, hsne, hlku, hlkb]
  rfl

/-- The converter on a bare digit run: the unit part is empty and the
multiplier is 1. -/
theorem size_call_bare (c : SizeWithUnitConverter) (s : List Char)
    (uden : ℚ)
    (hdig : ∀ ch ∈ s, ch.isDigit = true) (hne : s ≠ [])
    (hlkb : (if c.unit.isEmpty then Option.some (1 : ℚ)
             else dlookup c.unit_map c.unit) = Option.some uden) :
    size_with_unit_call c (String.mk s)
      = Except.ok (pyTrunc (1 / uden * (digitsToNat s : ℚ))) := by
  have htake : s.takeWhile Char.isDigit = s := by
    have := takeWhile_append_of_all Char.isDigit s [] hdig
    simpa using this
  have hdrop : s.dropWhile Char.isDigit = [] := by
    have := dropWhile_append_of_all Char.isDigit s [] hdig
    simpa using this
  have hsne : s.isEmpty = false := by
    cases s with
    | nil => exact absurd rfl hne
    | cons a t => rfl
  simp only [size_with_unit_call, String.toList]
  rw [htake, hdrop, hsne, hlkb]
  rfl


/-- C10: with the GB-base map of `--storage`, every input denoting a positive
size strictly below 1 GB truncates to the integer 0, and the storage-size
validator accepts 0 exactly as it accepts an absent value. -/
theorem storage_converter_below_one_gb_is_zero (s : List Char) (u : String)
    (m : ℚ)
    (hne : s ≠ []) (hdig : ∀ c ∈ s, c.isDigit = true)
    (hmem : (u, m) ∈ storage_unit_map)
    (hpos : 0 < (digitsToNat s : ℚ) * m)
    (hlt : (digitsToNat s : ℚ) * m < 1) :
    size_with_unit_call storage_converter (String.mk (s ++ u.toList))
        = Except.ok 0
    ∧ (validate_managed_instance_storage_size
        ⟨Option.some 0⟩).1 = Option.none
    ∧ (validate_managed_instance_storage_size
        ⟨Option.none⟩).1 = Option.none := by
  refine ⟨?_, rfl, rfl⟩
  simp only [storage_unit_map, List.mem_cons, List.not_mem_nil, or_false,
    Prod.mk.injEq] at hmem
  rcases hmem with ⟨rfl, rfl⟩ | ⟨rfl, rfl⟩ | ⟨rfl, rfl⟩ | ⟨rfl, rfl⟩ |
    ⟨rfl, rfl⟩
  · rw [size_call_concat storage_converter s "B".toList
      (1 / (1024 * 1024 * 1024)) 1 hdig hne (by decide) (by decide) rfl rfl]
    congr 1
    apply pyTrunc_eq_zero
    · rw [div_one, mul_comm]
      exact hpos.le
    · rw [div_one, mul_comm]
      exact hlt
  · rw [size_call_concat storage_converter s "kB".toList
      (1 / (1024 * 1024)) 1 hdig hne (by decide) (by decide) rfl rfl]
    congr 1
    apply pyTrunc_eq_zero
    · rw [div_one, mul_comm]
      exact hpos.le
    · rw [div_one, mul_comm]
      exact hlt
  · rw [size_call_concat storage_converter s "MB".toList (1 / 1024) 1 hdig
      hne (by decide) (by decide) rfl rfl]
    congr 1
    apply pyTrunc_eq_zero
    · rw [div_one, mul_comm]
      exact hpos.le
    · rw [div_one, mul_comm]
      exact hlt
  · rw [size_call_concat storage_converter s "GB".toList 1 1 hdig hne
      (by decide) (by decide) rfl rfl]
    congr 1
    apply pyTrunc_eq_zero
    · rw [div_one, mul_comm]
      exact hpos.le
    · rw [div_one, mul_comm]
      exact hlt
  · rw [size_call_concat storage_converter s "TB".toList 1024 1 hdig hne
      (by decide) (by decide) rfl rfl]
    congr 1
    apply pyTrunc_eq_zero
    · rw [div_one, mul_comm]
      exact hpos.le
    · rw [div_one, mul_comm]
      exact hlt

/-- C10 (witness): `1MB` converts to 0 under the GB-base map and the storage
validator accepts it. -/
theorem storage_converter_below_one_gb_is_zero_witness :
    size_with_unit_call storage_converter (String.mk (['1'] ++ "MB".toList))
        = Except.ok 0
    ∧ (validate_managed_instance_storage_size
        ⟨Option.some 0⟩).1 = Option.none
    ∧ (validate_managed_instance_storage_size
        ⟨Option.none⟩).1 = Option.none :=
  storage_converter_below_one_gb_is_zero ['1'] "MB" (1 / 1024 : ℚ)
    (by decide) (by decide)
    (List.Mem.tail _ (List.Mem.tail _ (List.Mem.head _)))
    (by norm_num [show digitsToNat ['1'] = 1 from rfl])
    (by norm_num [show digitsToNat ['1'] = 1 from rfl])

/-! ### Theorems about the binary64 value semantics -/

theorem bitlenAux_eq (fuel n : ℕ) (h : n ≤ fuel) :
    bitlenAux fuel n = if n = 0 then 0 else Nat.log2 n + 1 := by
  induction fuel generalizing n with
  | zero =>
    have hn : n = 0 := Nat.le_zero.mp h
    subst hn
    rfl
  | succ fuel ih =>
    by_cases hn : n = 0
    · subst hn
      rfl
    · simp only [bitlenAux, hn, if_false]
      rw [ih (n / 2) (by omega)]
      by_cases h2 : n = 1
      · subst h2
        norm_num [Nat.log2]
      · have hge : 2 ≤ n := by omega
        have hhalf : ¬ (n / 2 = 0) := by omega
        rw [if_neg hhalf]
        have hlog : Nat.log2 n = Nat.log2 (n / 2) + 1 := by
          rw [Nat.log2]
          simp [hge]
        rw [hlog]

theorem bitlen_eq (n : ℕ) (h : 0 < n) : bitlen n = Nat.log2 n + 1 := by
  rw [bitlen, bitlenAux_eq n n le_rfl, if_neg (Nat.pos_iff_ne_zero.mp h)]

theorem bitlen_pos (n : ℕ) (h : 0 < n) : 0 < bitlen n := by
  rw [bitlen_eq n h]
  omega

theorem bitlen_lower (n : ℕ) (h : 0 < n) : 2 ^ (bitlen n - 1) ≤ n := by
  rw [bitlen_eq n h, Nat.add_sub_cancel]
  exact Nat.log2_self_le (Nat.pos_iff_ne_zero.mp h)

theorem bitlen_upper (n : ℕ) (h : 0 < n) : n < 2 ^ bitlen n := by
  rw [bitlen_eq n h]
  exact Nat.lt_log2_self

theorem rneB1_pos (A B : ℕ) (hB : 0 < B) : 0 < rneB1 A B :=
  mul_pos hB (pow_pos (by norm_num) _)

theorem rneA1_pos (A B : ℕ) (hA : 0 < A) : 0 < rneA1 A B :=
  mul_pos hA (pow_pos (by norm_num) _)

/-- The pre-correction quotient is above `2^51`. -/
theorem rneA1_lower (A B : ℕ) (hA : 0 < A) (hB : 0 < B) :
    2 ^ 51 * rneB1 A B < rneA1 A B := by
  have hAl := bitlen_lower A hA
  have hBu := bitlen_upper B hB
  have hla := bitlen_pos A hA
  have hs : rneS A B = 52 - (bitlen A : ℤ) + (bitlen B : ℤ) := rfl
  have key : 51 + bitlen B + (-rneS A B).toNat
      = bitlen A - 1 + (rneS A B).toNat := by omega
  calc 2 ^ 51 * rneB1 A B
      = 2 ^ 51 * (B * 2 ^ (-rneS A B).toNat) := rfl
    _ < 2 ^ 51 * (2 ^ bitlen B * 2 ^ (-rneS A B).toNat) := by
        have h2 : (0:ℕ) < 2 ^ (-rneS A B).toNat := pow_pos (by norm_num) _
        exact mul_lt_mul_of_pos_left
          (mul_lt_mul_of_pos_right hBu h2) (pow_pos (by norm_num) 51)
    _ = 2 ^ (51 + bitlen B + (-rneS A B).toNat) := by
        rw [pow_add, pow_add, mul_assoc]
    _ = 2 ^ (bitlen A - 1 + (rneS A B).toNat) := by rw [key]
    _ = 2 ^ (bitlen A - 1) * 2 ^ (rneS A B).toNat := by rw [pow_add]
    _ ≤ A * 2 ^ (rneS A B).toNat :=
        Nat.mul_le_mul_right _ hAl
    _ = rneA1 A B := rfl

/-- The pre-correction quotient is below `2^53`. -/
theorem rneA1_upper (A B : ℕ) (hA : 0 < A) (hB : 0 < B) :
    rneA1 A B < 2 ^ 53 * rneB1 A B := by
  have hAu := bitlen_upper A hA
  have hBl := bitlen_lower B hB
  have hlb := bitlen_pos B hB
  have hs : rneS A B = 52 - (bitlen A : ℤ) + (bitlen B : ℤ) := rfl
  have key : bitlen A + (rneS A B).toNat
      = 53 + (bitlen B - 1) + (-rneS A B).toNat := by omega
  calc rneA1 A B
      = A * 2 ^ (rneS A B).toNat := rfl
    _ < 2 ^ bitlen A * 2 ^ (rneS A B).toNat :=
        mul_lt_mul_of_pos_right hAu (pow_pos (by norm_num) _)
    _ = 2 ^ (bitlen A + (rneS A B).toNat) := by rw [pow_add]
    _ = 2 ^ (53 + (bitlen B - 1) + (-rneS A B).toNat) := by rw [key]
    _ = 2 ^ 53 * (2 ^ (bitlen B - 1) * 2 ^ (-rneS A B).toNat) := by
        rw [pow_add, pow_add, mul_assoc]
    _ ≤ 2 ^ 53 * (B * 2 ^ (-rneS A B).toNat) :=
        Nat.mul_le_mul_left _ (Nat.mul_le_mul_right _ hBl)
    _ = 2 ^ 53 * rneB1 A B := rfl

/-- After the correction step the quotient lies in `[2^52, 2^53)`. -/
theorem rneA2_bracket (A B : ℕ) (hA : 0 < A) (hB : 0 < B) :
    2 ^ 52 * rneB1 A B ≤ rneA2 A B ∧ rneA2 A B < 2 ^ 53 * rneB1 A B := by
  have hlow := rneA1_lower A B hA hB
  have hup := rneA1_upper A B hA hB
  rw [rneA2]
  by_cases hc : rneA1 A B < 2 ^ 52 * rneB1 A B
  · rw [if_pos hc]
    constructor
    · calc 2 ^ 52 * rneB1 A B = 2 * (2 ^ 51 * rneB1 A B) := by ring
        _ ≤ 2 * rneA1 A B := by omega
    · omega
  · rw [if_neg hc]
    exact ⟨le_of_not_lt hc, hup⟩

/-- Round-to-nearest-even is exact on values representable with at most 53
significant bits: if `A / B = m0 * 2 ^ t` with `0 < m0 < 2^53`, the scaling
lands on an integer with zero remainder, so the significand/exponent pair
returned by `rneScale` denotes exactly `A / B`; the significand stays below
`2^53`. -/
theorem rneScale_exact (A B : ℕ) (hA : 0 < A) (hB : 0 < B)
    (m0 : ℕ) (t : ℤ) (hm0 : 0 < m0) (hm53 : m0 < 2 ^ 53)
    (hval : (A : ℚ) = (m0 : ℚ) * (2 : ℚ) ^ t * (B : ℚ)) :
    ((rneScale A B).1 : ℚ) * (2 : ℚ) ^ (rneScale A B).2
        = (m0 : ℚ) * (2 : ℚ) ^ t
      ∧ (rneScale A B).1 < 2 ^ 53 := by
  obtain ⟨hbl, hbu⟩ := rneA2_bracket A B hA hB
  have hB1 := rneB1_pos A B hB
  have ha1 : (rneA1 A B : ℚ)
      = (m0 : ℚ) * (2 : ℚ) ^ (t + rneS A B) * (rneB1 A B : ℚ) := by
    have e1 : (rneA1 A B : ℚ)
        = (A : ℚ) * (2 : ℚ) ^ (((rneS A B).toNat : ℤ)) := by
      rw [rneA1]
      push_cast
      rw [zpow_natCast]
    have e2 : (rneB1 A B : ℚ)
        = (B : ℚ) * (2 : ℚ) ^ ((((-rneS A B)).toNat : ℤ)) := by
      rw [rneB1]
      push_cast
      rw [zpow_natCast]
    have hp : ((rneS A B).toNat : ℤ)
        = rneS A B + (((-rneS A B)).toNat : ℤ) := by omega
    rw [e1, e2, hval, hp, zpow_add₀ two_ne_zero, zpow_add₀ two_ne_zero]
    ring
  have ha2 : (rneA2 A B : ℚ)
      = (m0 : ℚ) * (2 : ℚ) ^ (t + rneS2 A B) * (rneB1 A B : ℚ) := by
    rw [rneA2, rneS2]
    by_cases hc : rneA1 A B < 2 ^ 52 * rneB1 A B
    · rw [if_pos hc, if_pos hc]
      push_cast
      rw [ha1, show t + (rneS A B + 1) = (t + rneS A B) + 1 from by omega,
        zpow_add_one₀ two_ne_zero]
      ring
    · rw [if_neg hc, if_neg hc]
      exact ha1
  have hts2 : 0 ≤ t + rneS2 A B := by
    by_contra hneg
    push_neg at hneg
    have hle : (2 : ℚ) ^ (t + rneS2 A B) ≤ (2 : ℚ) ^ (-1 : ℤ) :=
      zpow_le_zpow_right₀ (by norm_num) (by omega)
    have hlt : (rneA2 A B : ℚ) < 2 ^ 52 * (rneB1 A B : ℚ) := by
      rw [ha2]
      have hm53q : (m0 : ℚ) < 2 ^ 53 := by exact_mod_cast hm53
      have hB1q : (0 : ℚ) < (rneB1 A B : ℚ) := by exact_mod_cast hB1
      calc (m0 : ℚ) * (2 : ℚ) ^ (t + rneS2 A B) * (rneB1 A B : ℚ)
          ≤ (m0 : ℚ) * (2 : ℚ) ^ (-1 : ℤ) * (rneB1 A B : ℚ) := by
            gcongr
        _ < (2 ^ 53 : ℚ) * (2 : ℚ) ^ (-1 : ℤ) * (rneB1 A B : ℚ) := by
            gcongr
        _ = 2 ^ 52 * (rneB1 A B : ℚ) := by
            rw [zpow_neg, zpow_one]
            norm_num
    have hcast : ((2 ^ 52 * rneB1 A B : ℕ) : ℚ) ≤ ((rneA2 A B : ℕ) : ℚ) := by
      exact_mod_cast hbl
    push_cast at hcast
    linarith
  have hexp : ((2 : ℚ)) ^ (((t + rneS2 A B).toNat : ℕ) : ℤ)
      = (2 : ℚ) ^ (t + rneS2 A B) := by
    congr 1
    omega
  have hdiv : rneA2 A B = m0 * 2 ^ (t + rneS2 A B).toNat * rneB1 A B := by
    have hq : ((rneA2 A B : ℕ) : ℚ)
        = ((m0 * 2 ^ (t + rneS2 A B).toNat * rneB1 A B : ℕ) : ℚ) := by
      push_cast
      rw [ha2, ← zpow_natCast (2 : ℚ) ((t + rneS2 A B).toNat), hexp]
    exact_mod_cast hq
  have hquot : rneA2 A B / rneB1 A B = m0 * 2 ^ (t + rneS2 A B).toNat := by
    rw [hdiv]
    exact Nat.mul_div_cancel _ hB1
  have hrem : rneA2 A B % rneB1 A B = 0 := by
    rw [hdiv]
    exact Nat.mul_mod_left _ _
  have hscale : rneScale A B
      = (m0 * 2 ^ (t + rneS2 A B).toNat, -rneS2 A B) := by
    simp only [rneScale, hquot, hrem]
    rw [if_pos (by omega : 2 * 0 < rneB1 A B)]
  constructor
  · rw [hscale]
    push_cast
    rw [← zpow_natCast (2 : ℚ) ((t + rneS2 A B).toNat), hexp, mul_assoc,
      ← zpow_add₀ (two_ne_zero),
      show (t + rneS2 A B) + -rneS2 A B = t from by omega]
  · rw [hscale]
    have := hbu
    rw [hdiv] at this
    exact Nat.lt_of_mul_lt_mul_right this

theorem overflows_eq_false_of_lt (f : PyFloat) (hm : 0 ≤ f.m)
    (hv : f.toRat < 2 ^ 1024) : f.overflows = false := by
  rw [PyFloat.overflows]
  by_cases he : 0 ≤ f.e
  · rw [if_pos he, decide_eq_false_iff_not]
    intro hge
    apply absurd hv
    rw [not_lt]
    have hval : f.toRat = ((f.m.natAbs * 2 ^ f.e.toNat : ℕ) : ℚ) := by
      rw [PyFloat.toRat]
      push_cast
      rw [Int.cast_natAbs, abs_of_nonneg (by exact_mod_cast hm),
        ← zpow_natCast (2 : ℚ) f.e.toNat, Int.toNat_of_nonneg he]
    rw [hval]
    exact_mod_cast hge
  · rw [if_neg he]

theorem pyTruncFloat_eq (f : PyFloat) (z : ℤ) (h : f.toRat = (z : ℚ)) :
    pyTruncFloat f = z := by
  rw [PyFloat.toRat] at h
  rw [pyTruncFloat]
  by_cases he : 0 ≤ f.e
  · rw [if_pos he]
    have hq : ((f.m * 2 ^ f.e.toNat : ℤ) : ℚ) = (z : ℚ) := by
      push_cast
      rw [← zpow_natCast (2 : ℚ) f.e.toNat, Int.toNat_of_nonneg he]
      exact h
    exact_mod_cast hq
  · rw [if_neg he]
    push_neg at he
    have hmz : f.m = z * 2 ^ (-f.e).toNat := by
      have hq : (f.m : ℚ) = (z : ℚ) * ((2 ^ (-f.e).toNat : ℤ) : ℚ) := by
        push_cast
        rw [← h, ← zpow_natCast (2 : ℚ) (-f.e).toNat,
          Int.toNat_of_nonneg (by omega : (0:ℤ) ≤ -f.e), mul_assoc,
          ← zpow_add₀ two_ne_zero, show f.e + -f.e = 0 from by omega,
          zpow_zero, mul_one]
      exact_mod_cast hq
    rw [hmz]
    exact Int.mul_tdiv_cancel z (pow_ne_zero _ (by norm_num))

/-- Correct rounding of a positive exact fraction that is representable in
53 bits: no value is lost and no overflow is signalled below `2^1024`. -/
theorem pyFloatOfFrac_exact (N D : ℤ) (hN : 0 < N) (hD : 0 < D)
    (m0 : ℕ) (t : ℤ) (hm0 : 0 < m0) (hm53 : m0 < 2 ^ 53)
    (hval : (N : ℚ) = (m0 : ℚ) * (2 : ℚ) ^ t * (D : ℚ))
    (hbound : (m0 : ℚ) * (2 : ℚ) ^ t < 2 ^ 1024) :
    ∃ f : PyFloat, pyFloatOfFrac N D = Except.ok f
      ∧ f.toRat = (m0 : ℚ) * (2 : ℚ) ^ t
      ∧ 0 < f.m ∧ f.m < 2 ^ 53 := by
  have hNa : ((N.natAbs : ℕ) : ℚ) = (N : ℚ) := by
    rw [Int.cast_natAbs]
    exact_mod_cast abs_of_nonneg hN.le
  have hDa : ((D.natAbs : ℕ) : ℚ) = (D : ℚ) := by
    rw [Int.cast_natAbs]
    exact_mod_cast abs_of_nonneg hD.le
  obtain ⟨hv, hmlt⟩ := rneScale_exact N.natAbs D.natAbs
    (Int.natAbs_pos.mpr hN.ne') (Int.natAbs_pos.mpr hD.ne') m0 t hm0 hm53
    (by rw [hNa, hDa]; exact hval)
  have hsign : (N < 0) = (D < 0) := by
    simp [not_lt.mpr hN.le, not_lt.mpr hD.le]
  simp only [pyFloatOfFrac]
  rw [if_neg hD.ne', if_neg hN.ne', if_pos hsign]
  have hm_pos : 0 < (rneScale N.natAbs D.natAbs).1 := by
    by_contra hz
    push_neg at hz
    rw [Nat.le_zero] at hz
    rw [hz] at hv
    have : (0 : ℚ) < (m0 : ℚ) * (2 : ℚ) ^ t := by positivity
    rw [← hv] at this
    simp at this
  have htr : (PyFloat.mk ((rneScale N.natAbs D.natAbs).1 : ℤ)
      (rneScale N.natAbs D.natAbs).2).toRat = (m0 : ℚ) * (2 : ℚ) ^ t := by
    rw [PyFloat.toRat]
    exact_mod_cast hv
  rw [overflows_eq_false_of_lt _ (by positivity) (by rw [htr]; exact hbound),
    if_neg Bool.false_ne_true]
  refine ⟨_, rfl, htr, ?_, ?_⟩
  · show (0 : ℤ) < ((rneScale N.natAbs D.natAbs).1 : ℤ)
    exact_mod_cast hm_pos
  · show ((rneScale N.natAbs D.natAbs).1 : ℤ) < 2 ^ 53
    exact_mod_cast hmlt

/-- Correct rounding of the product of two positive floats whose exact
mantissa product is representable in 53 bits. -/
theorem pyMul_exact (f g : PyFloat) (hf : 0 < f.m) (hg : 0 < g.m)
    (m0 : ℕ) (t : ℤ) (hm0 : 0 < m0) (hm53 : m0 < 2 ^ 53)
    (hmant : ((f.m * g.m : ℤ) : ℚ) = (m0 : ℚ) * (2 : ℚ) ^ t)
    (hbound : f.toRat * g.toRat < 2 ^ 1024) :
    ∃ h : PyFloat, pyMul f g = Except.ok h
      ∧ h.toRat = f.toRat * g.toRat ∧ 0 < h.m := by
  have hprod : 0 < f.m * g.m := mul_pos hf hg
  have hna : (((f.m * g.m).natAbs : ℕ) : ℚ) = ((f.m * g.m : ℤ) : ℚ) := by
    rw [Int.cast_natAbs]
    exact_mod_cast abs_of_nonneg hprod.le
  obtain ⟨hv, hmlt⟩ := rneScale_exact (f.m * g.m).natAbs 1
    (Int.natAbs_pos.mpr hprod.ne') one_pos m0 t hm0 hm53
    (by rw [hna, hmant]; push_cast; ring)
  have hsign : (f.m < 0) = (g.m < 0) := by
    simp [not_lt.mpr hf.le, not_lt.mpr hg.le]
  simp only [pyMul]
  rw [if_neg (by push_neg; exact ⟨hf.ne', hg.ne'⟩), if_pos hsign]
  have hm_pos : 0 < (rneScale (f.m * g.m).natAbs 1).1 := by
    by_contra hz
    push_neg at hz
    rw [Nat.le_zero] at hz
    rw [hz] at hv
    have : (0 : ℚ) < (m0 : ℚ) * (2 : ℚ) ^ t := by positivity
    rw [← hv] at this
    simp at this
  have htr : (PyFloat.mk ((rneScale (f.m * g.m).natAbs 1).1 : ℤ)
      ((rneScale (f.m * g.m).natAbs 1).2 + f.e + g.e)).toRat
      = f.toRat * g.toRat := by
    rw [PyFloat.toRat]
    have h1 : ((rneScale (f.m * g.m).natAbs 1).1 : ℚ)
        * (2 : ℚ) ^ (rneScale (f.m * g.m).natAbs 1).2
        = ((f.m * g.m : ℤ) : ℚ) := by
      rw [hv, ← hmant]
    rw [zpow_add₀ two_ne_zero, zpow_add₀ two_ne_zero, PyFloat.toRat,
      PyFloat.toRat]
    push_cast
    calc ((rneScale (f.m * g.m).natAbs 1).1 : ℚ)
        * ((2 : ℚ) ^ (rneScale (f.m * g.m).natAbs 1).2 * 2 ^ f.e * 2 ^ g.e)
        = (((rneScale (f.m * g.m).natAbs 1).1 : ℚ)
            * (2 : ℚ) ^ (rneScale (f.m * g.m).natAbs 1).2)
          * 2 ^ f.e * 2 ^ g.e := by ring
      _ = ((f.m : ℚ) * (g.m : ℚ)) * 2 ^ f.e * 2 ^ g.e := by
          rw [h1]
          push_cast
          ring
      _ = (f.m : ℚ) * 2 ^ f.e * ((g.m : ℚ) * 2 ^ g.e) := by ring
  rw [overflows_eq_false_of_lt _ (by positivity)
    (by rw [htr]; exact hbound), if_neg Bool.false_ne_true]
  refine ⟨_, rfl, htr, ?_⟩
  show (0 : ℤ) < ((rneScale (f.m * g.m).natAbs 1).1 : ℤ)
  exact_mod_cast hm_pos

/-- `float(n)` is exact for `0 < n < 2^53`. -/
theorem pyFloatOfInt_exact (n : ℕ) (h0 : 0 < n) (h53 : n < 2 ^ 53) :
    ∃ f : PyFloat, pyFloatOfInt (n : ℤ) = Except.ok f
      ∧ f.toRat = (n : ℚ) ∧ 0 < f.m ∧ f.m < 2 ^ 53 := by
  have hb : (n : ℚ) * (2 : ℚ) ^ (0 : ℤ) < 2 ^ 1024 := by
    rw [zpow_zero, mul_one]
    calc (n : ℚ) < ((2 ^ 53 : ℕ) : ℚ) := by exact_mod_cast h53
      _ = (2 : ℚ) ^ (53 : ℕ) := by push_cast; ring
      _ ≤ (2 : ℚ) ^ (1024 : ℕ) :=
          pow_le_pow_right₀ (by norm_num) (by norm_num)
  obtain ⟨f, hf, hval, hpos, hlt⟩ := pyFloatOfFrac_exact (n : ℤ) 1
    (by exact_mod_cast h0) one_pos n 0 h0 h53
    (by rw [zpow_zero]; push_cast; ring) hb
  rw [zpow_zero, mul_one] at hval
  exact ⟨f, hf, hval, hpos, hlt⟩

/-- The arithmetic stage of the converter is exact when the unit multiplier
is an exact power of two (significand `2^52`) and the numeric value is below
`2^53`. -/
theorem float_pipeline_exact (uvals : PyFloat) (mval : ℚ) (n : ℕ)
    (huval : uvals.toRat = mval) (hum : uvals.m = 2 ^ 52)
    (h53 : n < 2 ^ 53) (hmbound : mval ≤ 2 ^ 40) :
    ∃ nf prod : PyFloat, pyFloatOfInt (n : ℤ) = Except.ok nf
      ∧ pyMul uvals nf = Except.ok prod
      ∧ prod.toRat = mval * (n : ℚ) := by
  rcases Nat.eq_zero_or_pos n with hz | hpos
  · subst hz
    refine ⟨⟨0, 0⟩, ⟨0, 0⟩, rfl, ?_, ?_⟩
    · simp [pyMul]
    · simp [PyFloat.toRat]
  · obtain ⟨nf, hnf, hnfval, hnfpos, hnflt⟩ := pyFloatOfInt_exact n hpos h53
    have hupos : 0 < uvals.m := by rw [hum]; positivity
    have htn : ((nf.m.toNat : ℕ) : ℚ) = ((nf.m : ℤ) : ℚ) := by
      exact_mod_cast congrArg (fun z : ℤ => (z : ℚ))
        (Int.toNat_of_nonneg hnfpos.le)
    have hmant : ((uvals.m * nf.m : ℤ) : ℚ)
        = (nf.m.toNat : ℚ) * (2 : ℚ) ^ (52 : ℤ) := by
      rw [htn, show ((2 : ℚ) ^ (52 : ℤ)) = (2 : ℚ) ^ (52 : ℕ) from
        zpow_natCast 2 52]
      push_cast [hum]
      ring
    have hbound : uvals.toRat * nf.toRat < 2 ^ 1024 := by
      rw [huval, hnfval]
      have h1 : (n : ℚ) < (2 : ℚ) ^ (53 : ℕ) := by
        calc (n : ℚ) < ((2 ^ 53 : ℕ) : ℚ) := by exact_mod_cast h53
          _ = (2 : ℚ) ^ (53 : ℕ) := by push_cast; ring
      calc mval * (n : ℚ) ≤ (2 : ℚ) ^ (40 : ℕ) * (n : ℚ) := by
            have : (0:ℚ) ≤ (n : ℚ) := by positivity
            exact mul_le_mul_of_nonneg_right hmbound this
        _ < (2 : ℚ) ^ (40 : ℕ) * (2 : ℚ) ^ (53 : ℕ) := by
            exact mul_lt_mul_of_pos_left h1 (by positivity)
        _ = (2 : ℚ) ^ (93 : ℕ) := by rw [← pow_add]
        _ ≤ (2 : ℚ) ^ (1024 : ℕ) :=
            pow_le_pow_right₀ (by norm_num) (by norm_num)
    obtain ⟨prod, hpm, hprodval, _⟩ := pyMul_exact uvals nf hupos hnfpos
      nf.m.toNat (52 : ℤ) (by omega)
      (by zify [Int.toNat_of_nonneg hnfpos.le]; exact_mod_cast hnflt)
      hmant hbound
    refine ⟨nf, prod, hnf, hpm, ?_⟩
    rw [hprodval, huval, hnfval]

/-- The float-semantics converter on a digit run followed by a unit suffix,
with the three arithmetic stages supplied as hypotheses. -/
theorem size_call_float_concat (c : SizeWithUnitConverter) (s us : List Char)
    (unum uden : ℚ) (uvals nf prod : PyFloat)
    (hdig : ∀ ch ∈ s, ch.isDigit = true) (hne : s ≠ [])
    (hus_take : us.takeWhile Char.isDigit = [])
    (hus_ne : us ≠ [])
    (hlku : dlookup c.unit_map (String.mk us) = Option.some unum)
    (hlkb : (if c.unit.isEmpty then Option.some (1 : ℚ)
             else dlookup c.unit_map c.unit) = Option.some uden)
    (hdv : pyDiv unum uden = Except.ok uvals)
    (hnf : pyFloatOfInt (digitsToNat s : ℤ) = Except.ok nf)
    (hpm : pyMul uvals nf = Except.ok prod) :
    size_with_unit_call_float c (String.mk (s ++ us))
      = Except.ok (pyTruncFloat prod) := by
  have htake : (s ++ us).takeWhile Char.isDigit = s := by
    rw [takeWhile_append_of_all Char.isDigit s us hdig, hus_take,
      List.append_nil]
  have hdrop : (s ++ us).dropWhile Char.isDigit = us := by
    rw [dropWhile_append_of_all Char.isDigit s us hdig]
    exact dropWhile_eq_self_of_takeWhile_nil Char.isDigit us hus_take
  have hsne : s.isEmpty = false := by
    cases s with
    | nil => exact absurd rfl hne
    | cons a t => rfl
  have hune : us.isEmpty = false := by
    cases hc : us with
    | nil => exact absurd hc hus_ne
    | cons a t => rfl
  calc size_with_unit_call_float c (String.mk (s ++ us))
      = (pyDiv unum uden).bind (fun uvals0 =>
          (pyFloatOfInt (digitsToNat s : ℤ)).bind (fun nf0 =>
            (pyMul uvals0 nf0).map pyTruncFloat)) := by
        simp only [size_with_unit_call_float, String.toList]
        rw [htake, hdrop, hune, hsne, hlku, hlkb]
        rfl
    _ = Except.ok (pyTruncFloat prod) := by
        rw [hdv]
        simp only [Except.bind]
        rw [hnf]
        simp only [Except.bind]
        rw [hpm]
        simp only [Except.map]

/-- The float-semantics converter on a bare digit run (empty unit part), with
the arithmetic stages supplied as hypotheses. -/
theorem size_call_float_bare (c : SizeWithUnitConverter) (s : List Char)
    (uden : ℚ) (uvals nf prod : PyFloat)
    (hdig : ∀ ch ∈ s, ch.isDigit = true) (hne : s ≠ [])
    (hlkb : (if c.unit.isEmpty then Option.some (1 : ℚ)
             else dlookup c.unit_map c.unit) = Option.some uden)
    (hdv : pyDiv 1 uden = Except.ok uvals)
    (hnf : pyFloatOfInt (digitsToNat s : ℤ) = Except.ok nf)
    (hpm : pyMul uvals nf = Except.ok prod) :
    size_with_unit_call_float c (String.mk s)
      = Except.ok (pyTruncFloat prod) := by
  have htake : s.takeWhile Char.isDigit = s := by
    have := takeWhile_append_of_all Char.isDigit s [] hdig
    simpa using this
  have hdrop : s.dropWhile Char.isDigit = [] := by
    have := dropWhile_append_of_all Char.isDigit s [] hdig
    simpa using this
  have hsne : s.isEmpty = false := by
    cases s with
    | nil => exact absurd rfl hne
    | cons a t => rfl
  calc size_with_unit_call_float c (String.mk s)
      = (pyDiv 1 uden).bind (fun uvals0 =>
          (pyFloatOfInt (digitsToNat s : ℤ)).bind (fun nf0 =>
            (pyMul uvals0 nf0).map pyTruncFloat)) := by
        simp only [size_with_unit_call_float, String.toList]
        rw [htake, hdrop, hsne, hlkb]
        rfl
    _ = Except.ok (pyTruncFloat prod) := by
        rw [hdv]
        simp only [Except.bind]
        rw [hnf]
        simp only [Except.bind]
        rw [hpm]
        simp only [Except.map]

/-- One byte-ladder case of the converter formula: when the unit multiplier
`m` is the natural number `K` and divides out to the exact binary64
`2^52 * 2^E`, the converter on `s ++ u` returns exactly `K * n`. -/
theorem byte_case_helper (s : List Char) (u : String) (m : ℚ) (K : ℕ) (E : ℤ)
    (hne : s ≠ []) (hdig : ∀ c ∈ s, c.isDigit = true)
    (h53 : digitsToNat s < 2 ^ 53)
    (hK : m = ((K : ℕ) : ℚ))
    (hdv : pyDiv m 1 = Except.ok ⟨2 ^ 52, E⟩)
    (htr : (PyFloat.mk (2 ^ 52) E).toRat = m)
    (hmbound : m ≤ 2 ^ 40)
    (hus_take : u.toList.takeWhile Char.isDigit = [])
    (hus_ne : u.toList ≠ [])
    (hlku : dlookup max_size_converter.unit_map (String.mk u.toList)
        = Option.some m) :
    ∃ z : ℤ, size_with_unit_call_float max_size_converter
        (String.mk (s ++ u.toList)) = Except.ok z
      ∧ (z : ℚ) = (digitsToNat s : ℚ) * m / 1 := by
  obtain ⟨nf, prod, hnf, hpm, hval⟩ := float_pipeline_exact ⟨2 ^ 52, E⟩ m
    (digitsToNat s) htr rfl h53 hmbound
  refine ⟨(K : ℤ) * (digitsToNat s : ℤ), ?_, ?_⟩
  · rw [size_call_float_concat max_size_converter s u.toList m 1 ⟨2 ^ 52, E⟩
      nf prod hdig hne hus_take hus_ne hlku rfl hdv hnf hpm]
    congr 1
    apply pyTruncFloat_eq
    rw [hval, hK]
    push_cast
    ring
  · rw [hK]
    push_cast
    ring

/-- C4 (amended): under the binary64 value semantics of CPython's float
arithmetic, for every ASCII numeric string denoting a value below `2^53` and
every suffix of the byte-ladder unit map (base `B`), the converter returns
`n * unit_map[u] / unit_map[base]` exactly (the integer result cast back to
`ℚ` equals the rational formula, every multiplier being an exact power of
two); with an empty unit part the multiplier is 1 and such a bare numeric
string converts to itself. Above `2^53` the int-to-float conversion rounds,
so the original unrestricted claim is false. -/
theorem size_converter_exact_below_float_precision (s : List Char)
    (u : String) (m : ℚ)
    (hne : s ≠ []) (hdig : ∀ c ∈ s, c.isDigit = true)
    (hmem : (u, m) ∈ default_unit_map)
    (h53 : digitsToNat s < 2 ^ 53) :
    (∃ z : ℤ, size_with_unit_call_float max_size_converter
        (String.mk (s ++ u.toList)) = Except.ok z
      ∧ (z : ℚ) = (digitsToNat s : ℚ) * m / 1)
    ∧ size_with_unit_call_float max_size_converter (String.mk s)
        = Except.ok (digitsToNat s : ℤ) := by
  constructor
  · simp only [default_unit_map, List.mem_cons, List.not_mem_nil, or_false,
      Prod.mk.injEq] at hmem
    rcases hmem with ⟨rfl, rfl⟩ | ⟨rfl, rfl⟩ | ⟨rfl, rfl⟩ | ⟨rfl, rfl⟩ |
      ⟨rfl, rfl⟩
    · exact byte_case_helper s "B" 1 1 (-52) hne hdig h53 (by norm_num)
        rfl (by rw [PyFloat.toRat]; norm_num) (by norm_num) (by decide)
        (by decide) rfl
    · exact byte_case_helper s "kB" 1024 1024 (-42) hne hdig h53 (by norm_num)
        (by rw [show (1024 : ℚ) = ((1024 : ℕ) : ℚ) from by norm_num, pyDiv]
            simp only [Rat.num_natCast, Rat.den_natCast, Rat.num_one,
              Rat.den_one]
            rfl)
        (by rw [PyFloat.toRat]; norm_num) (by norm_num) (by decide)
        (by decide) rfl
    · exact byte_case_helper s "MB" (1024 * 1024) 1048576 (-32) hne hdig h53
        (by norm_num)
        (by rw [show (1024 * 1024 : ℚ) = ((1048576 : ℕ) : ℚ) from by norm_num,
              pyDiv]
            simp only [Rat.num_natCast, Rat.den_natCast, Rat.num_one,
              Rat.den_one]
            rfl)
        (by rw [PyFloat.toRat]; norm_num) (by norm_num) (by decide)
        (by decide) rfl
    · exact byte_case_helper s "GB" (1024 * 1024 * 1024) 1073741824 (-22)
        hne hdig h53 (by norm_num)
        (by rw [show (1024 * 1024 * 1024 : ℚ) = ((1073741824 : ℕ) : ℚ) from
              by norm_num, pyDiv]
            simp only [Rat.num_natCast, Rat.den_natCast, Rat.num_one,
              Rat.den_one]
            rfl)
        (by rw [PyFloat.toRat]; norm_num) (by norm_num) (by decide)
        (by decide) rfl
    · exact byte_case_helper s "TB" (1024 * 1024 * 1024 * 1024) 1099511627776
        (-12) hne hdig h53 (by norm_num)
        (by rw [show (1024 * 1024 * 1024 * 1024 : ℚ)
              = ((1099511627776 : ℕ) : ℚ) from by norm_num, pyDiv]
            simp only [Rat.num_natCast, Rat.den_natCast, Rat.num_one,
              Rat.den_one]
            rfl)
        (by rw [PyFloat.toRat]; norm_num) (by norm_num) (by decide)
        (by decide) rfl
  · obtain ⟨nf, prod, hnf, hpm, hval⟩ := float_pipeline_exact
      ⟨2 ^ 52, -52⟩ 1 (digitsToNat s) (by rw [PyFloat.toRat]; norm_num) rfl
      h53 (by norm_num)
    rw [size_call_float_bare max_size_converter s 1 ⟨2 ^ 52, -52⟩ nf prod
      hdig hne rfl (by rfl) hnf hpm]
    congr 1
    apply pyTruncFloat_eq
    rw [hval]
    push_cast
    ring

/-- C4 (witness): `2GB` with base `B` yields exactly `2 * 1024^3`, and `2`
converts to itself. -/
theorem size_converter_exact_below_float_precision_witness :
    (∃ z : ℤ, size_with_unit_call_float max_size_converter
        (String.mk (['2'] ++ "GB".toList)) = Except.ok z
      ∧ (z : ℚ) = (digitsToNat ['2'] : ℚ) * (1024 * 1024 * 1024 : ℚ) / 1)
    ∧ size_with_unit_call_float max_size_converter (String.mk ['2'])
        = Except.ok (digitsToNat ['2'] : ℤ) :=
  size_converter_exact_below_float_precision ['2'] "GB"
    (1024 * 1024 * 1024 : ℚ) (by decide) (by decide)
    (List.Mem.tail _ (List.Mem.tail _ (List.Mem.tail _ (List.Mem.head _))))
    (by decide)

set_option maxRecDepth 4000 in
/-- C4 (counterexample): the numeric string `9007199254740993` denotes
`2^53 + 1`, which CPython's `float(int(...))` rounds to `2^53`; the converter
therefore returns `9007199254740992`, not the value of the string, refuting
the unrestricted "exactly for every numeric string" claim. -/
theorem size_converter_rounds_above_float_precision :
    size_with_unit_call_float max_size_converter "9007199254740993"
        = Except.ok 9007199254740992
      ∧ digitsToNat "9007199254740993".toList = 9007199254740993
      ∧ (9007199254740992 : ℤ) ≠ 9007199254740993 :=
  ⟨rfl, by decide, by decide⟩

/-- C5: on ASCII input (where `Char.isDigit` agrees with Python's
`str.isdigit`), a value whose trailing non-digit unit part is non-empty and
not a key of the configured unit map makes the converter fail (`KeyError` at
the unit-map subscript, re-raised as `ValueError` and surfaced by the CLI as
InvalidArgument) before any arithmetic, instead of returning a value. -/
theorem size_converter_unknown_suffix (value : String)
    (hascii : ∀ c ∈ value.toList, c.toNat < 128)
    (hne : value.toList.dropWhile Char.isDigit ≠ [])
    (hnk : dmem default_unit_map
        (String.mk (value.toList.dropWhile Char.isDigit)) = false) :
    size_with_unit_call_float max_size_converter value
      = Except.error "ValueError" := by
  have hie : (value.toList.dropWhile Char.isDigit).isEmpty = false := by
    cases hc : value.toList.dropWhile Char.isDigit with
    | nil => exact absurd hc hne
    | cons a t => rfl
  have hlk : dlookup max_size_converter.unit_map
      (String.mk (value.toList.dropWhile Char.isDigit)) = Option.none := by
    rw [dlookup_eq_none_iff]
    exact hnk
  simp only [size_with_unit_call_float]
  rw [hie, hlk]
  rfl

/-- C5 (witness): the all-ASCII input `10XB` fails with the unknown suffix
`XB`. -/
theorem size_converter_unknown_suffix_witness :
    size_with_unit_call_float max_size_converter "10XB"
      = Except.error "ValueError" :=
  size_converter_unknown_suffix "10XB" (by decide) (by decide) (by decide)

end AzCliSql
